import Mathlib

/-
Verification of the document-processing pipeline of the South African legal
document collection (scripts/process_legal_documents.py).

The Python source is shallowly embedded: strings are `List Char` (ASCII
assumed), Python `None`-able values are `Option`, raised exceptions are
`Except String`.  Regular-expression operations of the source are embedded
as explicit maximal-munch / backtracking matchers that follow the concrete
regex of each call site; Python dicts that are only built and iterated are
association lists in insertion order.
-/

namespace SALegal

/-! ### Character classes (Python `re` classes, ASCII range) -/

/-- Python regex `\s` (ASCII): space, tab, newline, carriage return,
vertical tab, form feed. -/
def isWs (c : Char) : Bool :=
  c = ' ' || c = '\t' || c = '\n' || c = '\r' || c.toNat = 11 || c.toNat = 12

/-- Python regex `\d` (ASCII). -/
def isDigitCh (c : Char) : Bool := c.isDigit

/-- Python regex `\w` (ASCII part: letters, digits, underscore). -/
def isWordChar (c : Char) : Bool := c.isAlphanum || c = '_'

/-- The head of `r`, if any, fails `p` (used to state that a maximal munch
stops exactly at `r`). -/
def headNot (p : Char → Bool) (r : List Char) : Bool :=
  match r with
  | [] => true
  | c :: _ => !(p c)

/-! ### Parsing primitives used by the regex embeddings

Each primitive implements one regex fragment with Python's greedy
(maximal-munch) semantics; backtracking is introduced explicitly at the one
junction of the source regexes where it can matter.  -/

/-- Consume a literal word case-insensitively (the regexes in question are
compiled with `re.IGNORECASE`); `w` is given in lowercase.  Returns the rest
of the input on success. -/
def stripLitCi : List Char → List Char → Option (List Char)
  | [], s => some s
  | _ :: _, [] => none
  | c :: w, d :: s => if d.toLower = c.toLower then stripLitCi w s else none

/-- Consume a literal word case-sensitively. -/
def stripLit : List Char → List Char → Option (List Char)
  | [], s => some s
  | _ :: _, [] => none
  | c :: w, d :: s => if d = c then stripLit w s else none

/-- Regex `\s+` (greedy): requires at least one whitespace character and
consumes the maximal run. -/
def wsPlus (s : List Char) : Option (List Char) :=
  match s with
  | [] => none
  | c :: rest => if isWs c then some (rest.dropWhile isWs) else none

/-- Regex `(\d+)` (greedy): maximal nonempty digit run, returned together
with the rest. -/
def digits1 (s : List Char) : Option (List Char × List Char) :=
  match s with
  | [] => none
  | c :: rest =>
    if isDigitCh c then some (c :: rest.takeWhile isDigitCh, rest.dropWhile isDigitCh)
    else none

/-- Regex `(\d{4})`: exactly four digits (no boundary requirement after). -/
def digits4 (s : List Char) : Option (List Char × List Char) :=
  match s with
  | a :: b :: c :: d :: rest =>
    if isDigitCh a && isDigitCh b && isDigitCh c && isDigitCh d then
      some ([a, b, c, d], rest)
    else none
  | _ => none

/-- Regex `(\w+)` (greedy): maximal nonempty word-character run. -/
def wordRun1 (s : List Char) : Option (List Char × List Char) :=
  match s with
  | [] => none
  | c :: rest =>
    if isWordChar c then some (c :: rest.takeWhile isWordChar, rest.dropWhile isWordChar)
    else none

/-- Generic `re.search` scan: try the matcher at every start position, left
to right (Python's leftmost-match rule), including the final empty suffix. -/
def searchWith {α : Type} (m : List Char → Option α) : List Char → Option α
  | [] => m []
  | c :: rest =>
    match m (c :: rest) with
    | some a => some a
    | none => searchWith m rest

/-! ### 4.7 CrossReferenceResolver: `identify_target_document`
(process_legal_documents.py lines 318-334).

Act regex (line 325, `re.IGNORECASE`):
  `Act\s+(?:No\.\s*)?(\d+)\s+of\s+(\d{4})`
Case regex (line 330, case sensitive):
  `(\d{4})\s*\(\s*\d+\s*\)\s*(\w+)\s*\d+\s*\((\w+)\)` -/

/-- Tail of the act regex after the optional `No.` part:
`(\d+)\s+of\s+(\d{4})`. -/
def actTail (s : List Char) : Option (List Char × List Char) :=
  match digits1 s with
  | none => none
  | some (n, s1) =>
    match wsPlus s1 with
    | none => none
    | some s2 =>
      match stripLitCi ['o', 'f'] s2 with
      | none => none
      | some s3 =>
        match wsPlus s3 with
        | none => none
        | some s4 =>
          match digits4 s4 with
          | none => none
          | some (y, _) => some (n, y)

/-- Match the act regex anchored at the current position.  The optional
group `(?:No\.\s*)?` is greedy: the branch that consumes `No.` is tried
first with the full continuation, exactly as the backtracking engine does. -/
def actMatchAt (s : List Char) : Option (List Char × List Char) :=
  match stripLitCi ['a', 'c', 't'] s with
  | none => none
  | some s1 =>
    match wsPlus s1 with
    | none => none
    | some s2 =>
      match stripLitCi ['n', 'o', '.'] s2 with
      | some s3 =>
        match actTail (s3.dropWhile isWs) with
        | some r => some r
        | none => actTail s2
      | none => actTail s2

/-- `re.search` of the act regex: leftmost match, groups `(N, YYYY)`. -/
def actSearch (s : List Char) : Option (List Char × List Char) :=
  searchWith actMatchAt s

/-- Fragment `\s*\d+\s*\((\w+)\)` of the case regex, applied after a
candidate reporter split; returns the court group. -/
def caseAfterReporter (s : List Char) : Option (List Char) :=
  match digits1 (s.dropWhile isWs) with
  | none => none
  | some (_q, s2) =>
    match s2.dropWhile isWs with
    | [] => none
    | c :: s4 =>
      if c = '(' then
        match wordRun1 s4 with
        | none => none
        | some (court, s5) =>
          match s5 with
          | [] => none
          | d :: _ => if d = ')' then some court else none
      else none

/-- Backtracking for the junction `(\w+)\s*\d+`: the maximal word run `W`
is split greedily, longest reporter candidate first, exactly like the
backtracking of a greedy `\w+` followed by the rest of the pattern. -/
def caseReporterLoop (W rest : List Char) : Nat → Option (List Char × List Char)
  | 0 => none
  | k + 1 =>
    match caseAfterReporter (W.drop (k + 1) ++ rest) with
    | some court => some (W.take (k + 1), court)
    | none => caseReporterLoop W rest k

/-- Match the case regex anchored at the current position; groups
`(YYYY, REPORTER, COURT)`. -/
def caseMatchAt (s : List Char) : Option (List Char × List Char × List Char) :=
  match digits4 s with
  | none => none
  | some (y, s1) =>
    match s1.dropWhile isWs with
    | [] => none
    | c :: s3 =>
      if c = '(' then
        match digits1 (s3.dropWhile isWs) with
        | none => none
        | some (_v, s5) =>
          match s5.dropWhile isWs with
          | [] => none
          | d :: s7 =>
            if d = ')' then
              match wordRun1 (s7.dropWhile isWs) with
              | none => none
              | some (W, s9) =>
                match caseReporterLoop W s9 W.length with
                | none => none
                | some (rep, court) => some (y, rep, court)
            else none
      else none

/-- `re.search` of the case regex. -/
def caseSearch (s : List Char) : Option (List Char × List Char × List Char) :=
  searchWith caseMatchAt s

/-- `identify_target_document` (lines 318-334): act citations resolve to
`act_{YYYY}_{N}`, else case citations to `case_{YYYY}_{REPORTER}_{COURT}`,
else `None`. -/
def identifyTargetL (citation : List Char) : Option (List Char) :=
  match actSearch citation with
  | some (n, y) => some (['a', 'c', 't', '_'] ++ y ++ '_' :: n)
  | none =>
    match caseSearch citation with
    | some (y, rep, court) =>
      some (['c', 'a', 's', 'e', '_'] ++ y ++ '_' :: rep ++ '_' :: court)
    | none => none

/-- String-level wrapper of `identify_target_document`. -/
def identifyTargetDocument (citation : String) : Option String :=
  (identifyTargetL citation.data).map (fun l => String.mk l)

/-! ### Spec-side citation shapes (for claim C2)

These predicates restate, structurally, the spec's wording: "an Act citation
of the form `Act No. N of YYYY` (the `No.` part optional, case-insensitive)"
and "a law-report case citation of the form `YYYY (V) REPORTER P (COURT)`".
They are only compared with the matchers above. -/

/-- A case-insensitive occurrence of the letters of `act`. -/
def IsCiAct (a : List Char) : Prop :=
  ∃ c1 c2 c3, a = [c1, c2, c3] ∧ (c1 = 'a' ∨ c1 = 'A') ∧
    (c2 = 'c' ∨ c2 = 'C') ∧ (c3 = 't' ∨ c3 = 'T')

/-- A case-insensitive occurrence of `of`. -/
def IsCiOf (a : List Char) : Prop :=
  ∃ c1 c2, a = [c1, c2] ∧ (c1 = 'o' ∨ c1 = 'O') ∧ (c2 = 'f' ∨ c2 = 'F')

/-- A case-insensitive occurrence of `no.`. -/
def IsCiNoDot (a : List Char) : Prop :=
  ∃ c1 c2, a = [c1, c2, '.'] ∧ (c1 = 'n' ∨ c1 = 'N') ∧ (c2 = 'o' ∨ c2 = 'O')

/-- A nonempty whitespace run. -/
def IsWsRun (w : List Char) : Prop := w ≠ [] ∧ ∀ c ∈ w, isWs c = true

/-- A possibly empty whitespace run. -/
def IsWsRun0 (w : List Char) : Prop := ∀ c ∈ w, isWs c = true

/-- A nonempty digit run. -/
def IsDigitRun (d : List Char) : Prop := d ≠ [] ∧ ∀ c ∈ d, isDigitCh c = true

/-- A nonempty word-character run. -/
def IsWordRun (d : List Char) : Prop := d ≠ [] ∧ ∀ c ∈ d, isWordChar c = true

/-- Exactly four digits (a year as written in the citation). -/
def IsYear (y : List Char) : Prop := y.length = 4 ∧ ∀ c ∈ y, isDigitCh c = true

/-- The optional `No.` part of an act citation: either absent, or `No.`
followed by optional whitespace. -/
def IsNoPart (np : List Char) : Prop :=
  np = [] ∨ ∃ no w2, np = no ++ w2 ∧ IsCiNoDot no ∧ IsWsRun0 w2

/-- The spec's act-citation shape, anchored at the start of `t`:
`Act` `\s+` (`No.` `\s*`)? digits `\s+` `of` `\s+` year, then anything. -/
def ActShapeAt (t n y : List Char) : Prop :=
  ∃ a w1 np w2 o w3 rest,
    t = a ++ w1 ++ np ++ n ++ w2 ++ o ++ w3 ++ y ++ rest ∧
    IsCiAct a ∧ IsWsRun w1 ∧ IsNoPart np ∧ IsDigitRun n ∧
    IsWsRun w2 ∧ IsCiOf o ∧ IsWsRun w3 ∧ IsYear y

/-- The citation text contains an act citation with groups `n` (number) and
`y` (year) somewhere. -/
def ContainsActShape (s n y : List Char) : Prop :=
  ∃ pre tail, s = pre ++ tail ∧ ActShapeAt tail n y

/-- The spec's law-report case-citation shape, anchored at the start of `t`:
year `\s*` `(` `\s*` digits `\s*` `)` `\s*` reporter `\s*` digits `\s*`
`(` court `)`, then anything. -/
def CaseShapeAt (t y rep court : List Char) : Prop :=
  ∃ u1 u2 p u3 u4 u5 q u6 rest,
    t = y ++ u1 ++ '(' :: (u2 ++ p ++ u3) ++ ')' :: (u4 ++ rep ++ u5 ++ q ++ u6) ++
        '(' :: court ++ ')' :: rest ∧
    IsYear y ∧ IsWsRun0 u1 ∧ IsWsRun0 u2 ∧ IsDigitRun p ∧ IsWsRun0 u3 ∧
    IsWsRun0 u4 ∧ IsWordRun rep ∧ IsWsRun0 u5 ∧ IsDigitRun q ∧ IsWsRun0 u6 ∧
    IsWordRun court

/-- The citation text contains a law-report case citation somewhere. -/
def ContainsCaseShape (s y rep court : List Char) : Prop :=
  ∃ pre tail, s = pre ++ tail ∧ CaseShapeAt tail y rep court

/-- Identifier produced for a resolved act citation. -/
def actIdOf (n y : List Char) : List Char := ['a', 'c', 't', '_'] ++ y ++ '_' :: n

/-- Identifier produced for a resolved case citation. -/
def caseIdOf (y rep court : List Char) : List Char :=
  ['c', 'a', 's', 'e', '_'] ++ y ++ '_' :: rep ++ '_' :: court

/-! ### 4.1 TextExtractor: `extract_text_from_pdf` (lines 180-203)

The two PDF libraries are external; a PDF file is modelled by the outcome
each library would produce on it: either extracted text or a raised
exception. -/

instance {ε α : Type} [DecidableEq ε] [DecidableEq α] : DecidableEq (Except ε α) :=
  fun a b =>
    match a, b with
    | .error e, .error f =>
      match decEq e f with
      | isTrue h => isTrue (h ▸ rfl)
      | isFalse h => isFalse (fun hc => h (Except.error.inj hc))
    | .error _, .ok _ => isFalse (fun hc => Except.noConfusion hc)
    | .ok _, .error _ => isFalse (fun hc => Except.noConfusion hc)
    | .ok x, .ok y =>
      match decEq x y with
      | isTrue h => isTrue (h ▸ rfl)
      | isFalse h => isFalse (fun hc => h (Except.ok.inj hc))

/-- A PDF input, abstracted to the outcomes of the two extraction methods:
`fitzResult` is the text PyMuPDF accumulates (or the exception it raises),
`pypdf2Result` likewise for PyPDF2. -/
structure PdfFile where
  path : String
  fitzResult : Except String String
  pypdf2Result : Except String String
deriving DecidableEq

/-- `extract_text_from_pdf`: return the PyMuPDF text; only if PyMuPDF
*raises* fall back to PyPDF2; if that also raises return `""`.
(A successful but empty PyMuPDF result is returned as is — the except
branch is the only path to the fallback in the source.) -/
def extractTextFromPdf (f : PdfFile) : String :=
  match f.fitzResult with
  | .ok t => t
  | .error _ =>
    match f.pypdf2Result with
    | .ok t => t
    | .error _ => ""

/-! ### Document metadata as the reduce stage reads it

`model_legal_hierarchy` and `process_temporal_versioning` access their
`documents` dict entries only through `doc_info.get(...)`.  `DocMeta`
records exactly those accesses; a key that is absent (or has value `None`)
is `none`. -/

/-- One entry of a `cross_refs["references"]` list (lines 309-313). -/
structure CrossRef where
  citation : String
  target_document : String
  location : Nat
deriving DecidableEq

/-- The fields of a `doc_info` dict that the reduce stage reads. -/
structure DocMeta where
  type : Option String
  title : Option String
  date : Option String
  version : Option String
  parent_act : Option String
  references : List CrossRef
deriving DecidableEq

/-! ### 4.8 HierarchyGraphBuilder: `model_legal_hierarchy` (lines 336-368)

A networkx `DiGraph` is embedded as insertion-ordered node and edge lists.
networkx semantics followed here: `add_node` on an existing node *updates*
its attributes; `add_edge` inserts missing endpoints as attribute-less
nodes and updates an existing edge's attributes. -/

/-- Node attributes: `level` and `type` as set by `add_node` (absent for a
node created implicitly by `add_edge`). -/
structure NodeData where
  level : Option Nat
  type : Option String
deriving DecidableEq

/-- The hierarchy graph: nodes and edges in insertion order.  An edge is
`(source, target, relation)` with `relation = none` when the `add_edge`
call passes no `relation=` attribute. -/
structure Graph where
  nodes : List (String × NodeData)
  edges : List (String × String × Option String)
deriving DecidableEq

/-- networkx `add_node(id, level=lvl, type=ty)`: update the attributes if
the node exists, else append it. -/
def addNodeG (g : Graph) (id : String) (lvl : Nat) (ty : String) : Graph :=
  if g.nodes.any (fun n => n.1 = id) then
    { g with nodes := g.nodes.map (fun n => if n.1 = id then (id, ⟨some lvl, some ty⟩) else n) }
  else
    { g with nodes := g.nodes ++ [(id, ⟨some lvl, some ty⟩)] }

/-- networkx: an edge endpoint that is not yet a node is added without
attributes. -/
def ensureNode (g : Graph) (id : String) : Graph :=
  if g.nodes.any (fun n => n.1 = id) then g
  else { g with nodes := g.nodes ++ [(id, ⟨none, none⟩)] }

/-- networkx `add_edge(src, tgt)` / `add_edge(src, tgt, relation=r)`. -/
def addEdgeG (g : Graph) (src tgt : String) (rel : Option String) : Graph :=
  let g1 := ensureNode (ensureNode g src) tgt
  if g1.edges.any (fun e => e.1 = src && e.2.1 = tgt) then
    { g1 with edges := g1.edges.map (fun e => if e.1 = src && e.2.1 = tgt then (src, tgt, rel) else e) }
  else
    { g1 with edges := g1.edges ++ [(src, tgt, rel)] }

/-- Membership test `id in hierarchy_graph`. -/
def hasNode (g : Graph) (id : String) : Bool :=
  g.nodes.any (fun n => n.1 = id)

/-- One iteration of the document loop of `model_legal_hierarchy`
(lines 345-366). -/
def hierarchyStep (g : Graph) (doc : String × DocMeta) : Graph :=
  let docId := doc.1
  let m := doc.2
  let ty := m.type.getD "unknown"
  if ty = "act" then
    addEdgeG (addNodeG g docId 1 "act") "constitution" docId none
  else if ty = "regulation" then
    match m.parent_act with
    | some p =>
      -- `if parent_act and parent_act in hierarchy_graph`: an empty string
      -- is falsy in Python.
      if p ≠ "" && hasNode g p then
        addEdgeG (addNodeG g docId 2 "regulation") p docId none
      else g
    | none => g
  else if ty = "case" then
    let g1 := addNodeG g docId 3 "case"
    m.references.foldl
      (fun g2 ref =>
        if hasNode g2 ref.target_document then
          addEdgeG g2 ref.target_document docId (some "interprets")
        else g2)
      g1
  else g

/-- `model_legal_hierarchy` (lines 336-368): root constitution node, then
one pass over the documents in insertion order. -/
def modelLegalHierarchy (documents : List (String × DocMeta)) : Graph :=
  documents.foldl hierarchyStep (addNodeG ⟨[], []⟩ "constitution" 0 "constitution")

/-- Attribute lookup for a node. -/
def lookupNode (g : Graph) (id : String) : Option NodeData :=
  (g.nodes.find? (fun n => n.1 = id)).map (fun n => n.2)

/-! ### 4.9 TemporalVersionGrouper: `process_temporal_versioning`
(lines 370-399)

The base-title regex is `re.match(r'(.*?)(?:\s+Amendment)?$', title)`: a
lazy prefix of non-newline characters, then optionally `\s+Amendment`, then
`$` (end of string, or just before a final newline). -/

/-- Python `str.strip()` (whitespace, ASCII model). -/
def pyStrip (s : List Char) : List Char :=
  ((s.dropWhile isWs).reverse.dropWhile isWs).reverse

/-- The literal `Amendment`. -/
def amendChars : List Char := ['A', 'm', 'e', 'n', 'd', 'm', 'e', 'n', 't']

/-- `$` without `re.MULTILINE`: end of input or just before a trailing
newline. -/
def dollarOk (r : List Char) : Bool :=
  match r with
  | [] => true
  | ['\n'] => true
  | _ => false

/-- Does the remainder after the lazy prefix match `(?:\s+Amendment)?$`? -/
def remOk (r : List Char) : Bool :=
  dollarOk r ||
  (match r with
   | [] => false
   | c :: _ =>
     isWs c &&
     (match stripLit amendChars (r.dropWhile isWs) with
      | some t => dollarOk t
      | none => false))

/-- Lazy scan for `(.*?)(?:\s+Amendment)?$`: the shortest newline-free
prefix whose remainder matches; `acc` holds the reversed prefix so far. -/
def matchBaseAux : List Char → List Char → Option (List Char)
  | acc, [] => if remOk [] then some acc.reverse else none
  | acc, c :: rest =>
    if remOk (c :: rest) then some acc.reverse
    else if c = '\n' then none
    else matchBaseAux (c :: acc) rest

/-- `re.match(r'(.*?)(?:\s+Amendment)?$', t)`, returning group 1. -/
def matchBase (t : List Char) : Option (List Char) := matchBaseAux [] t

/-- One element of a `document_versions[base_id]` list (lines 388-393). -/
structure VersionEntry where
  doc_id : String
  date : Option String
  version : String
  title : Option String
deriving DecidableEq

/-- Append `e` to the group keyed `key`, creating the group at the end on
first use (Python dict insertion order). -/
def addToGroups (gs : List (List Char × List VersionEntry)) (key : List Char)
    (e : VersionEntry) : List (List Char × List VersionEntry) :=
  if gs.any (fun g => g.1 = key) then
    gs.map (fun g => if g.1 = key then (g.1, g.2 ++ [e]) else g)
  else gs ++ [(key, [e])]

/-- The grouping loop of `process_temporal_versioning` (lines 375-393). -/
def ptvStep (gs : List (List Char × List VersionEntry)) (doc : String × DocMeta) :
    List (List Char × List VersionEntry) :=
  let m := doc.2
  if m.type = some "act" then
    match matchBase ((m.title.getD "").data) with
    | some b =>
      addToGroups gs (pyStrip b)
        { doc_id := doc.1, date := m.date, version := m.version.getD "unknown",
          title := m.title }
    | none => gs
  else gs

/-- Grouping pass over the documents in insertion order. -/
def ptvCollect (documents : List (String × DocMeta)) :
    List (List Char × List VersionEntry) :=
  documents.foldl ptvStep []

/-- Lexicographic (code-point) strict order on strings, Python `str <`. -/
def lexLt : List Char → List Char → Bool
  | [], [] => false
  | [], _ :: _ => true
  | _ :: _, [] => false
  | a :: as_, b :: bs =>
    if a.toNat < b.toNat then true
    else if b.toNat < a.toNat then false
    else lexLt as_ bs

/-- Sort key of line 397: `x.get("date", "")`.  The `"date"` key is always
present in a version dict (line 390), so the default never applies and a
record without a date yields the key `None`. -/
def entryKey (e : VersionEntry) : List Char := (e.date.getD "").data

/-- Stable ascending insertion: an element goes after every element whose
key is not greater (equal keys keep their original relative order). -/
def insertAsc (e : VersionEntry) : List VersionEntry → List VersionEntry
  | [] => [e]
  | x :: xs => if lexLt (entryKey e) (entryKey x) then e :: x :: xs else x :: insertAsc e xs

/-- Stable ascending sort by date key (insertion sort; Python's `sort` is
also stable and ascending, so the results agree when no comparison
raises). -/
def sortEntries (l : List VersionEntry) : List VersionEntry :=
  l.foldl (fun acc e => insertAsc e acc) []

/-- `list.sort(key=lambda x: x.get("date", ""))`: with two or more
elements every element takes part in at least one comparison, and any
comparison involving `None` raises `TypeError`; otherwise the stable
ascending sort by the string key. -/
def pySortEntries (l : List VersionEntry) : Except String (List VersionEntry) :=
  if 2 ≤ l.length && l.any (fun e => e.date.isNone) then .error "TypeError"
  else .ok (sortEntries l)

/-- `process_temporal_versioning` (lines 370-399): group, then sort each
group in insertion order; the first raised `TypeError` aborts. -/
def processTemporalVersioning (documents : List (String × DocMeta)) :
    Except String (List (List Char × List VersionEntry)) :=
  (ptvCollect documents).mapM (fun g => (pySortEntries g.2).map (fun l => (g.1, l)))

/-! ### 4.2 LanguageDetector: `detect_language` (lines 401-440)

`re.findall(r'\b' + re.escape(word) + r'\b', sample)` scans left to right;
a hit requires a word boundary on both sides and scanning resumes after the
matched word. -/

/-- One scanning step state: `bb` is true when the previous character (if
any) was not a word character (i.e. a `\b` boundary holds here). -/
def countOccurAux (w : List Char) : Nat → Bool → List Char → Nat
  | 0, _, _ => 0
  | fuel + 1, bb, s =>
    if bb && w.isPrefixOf s && headNot isWordChar (s.drop w.length) && !w.isEmpty then
      1 + countOccurAux w fuel
        (match w.getLast? with
         | some c => !isWordChar c
         | none => bb)
        (s.drop w.length)
    else
      match s with
      | [] => 0
      | c :: rest => countOccurAux w fuel (!isWordChar c) rest

/-- Number of `re.findall(r'\bw\b', s)` matches. -/
def countOccur (w s : List Char) : Nat := countOccurAux w (s.length + 1) true s

/-- The marker-word table of `detect_language` (lines 411-423), in source
order. -/
def languageWords : List (String × List String) :=
  [ ("en", ["the", "and", "of", "to", "a", "in", "that", "is"])
  , ("af", ["die", "en", "van", "in", "is", "het", "nie", "dat"])
  , ("zu", ["ukuthi", "umuntu", "futhi", "ngokuthi", "ngoba", "uma"])
  , ("xh", ["ukuba", "kunye", "ukuze", "umtu", "kodwa", "kuba"])
  , ("st", ["hore", "le", "ka", "ho", "ke", "ha", "tse", "ya"])
  , ("tn", ["gore", "le", "ka", "go", "ke", "ga", "tse", "ya"])
  , ("nso", ["gore", "le", "ka", "go", "ke", "ga", "tše", "ya"])
  , ("ts", ["ku", "na", "ni", "va", "swi", "laha", "loko", "kambe"])
  , ("ss", ["kutsi", "uma", "naloku", "ngoba", "kuze", "kantsi"])
  , ("ve", ["uri", "na", "vha", "nga", "kha", "ha", "ndi", "hu"])
  , ("nr", ["bona", "ukuthi", "lokhu", "lapho", "uma", "ngakho"]) ]

/-- The 1000-character lowercased sample (line 408). -/
def langSample (text : List Char) : List Char :=
  (text.take 1000).map Char.toLower

/-- The `language_scores` dict in insertion order (lines 426-430). -/
def langScores (text : List Char) : List (String × Nat) :=
  languageWords.map (fun lw => (lw.1, (lw.2.map (fun w => countOccur w.data (langSample text))).sum))

/-- Python `max(items, key=lambda x: x[1])`: the first item whose value is
maximal (a later item replaces the current best only when strictly
greater). -/
def pyMaxSnd (x : String × Nat) (xs : List (String × Nat)) : String × Nat :=
  xs.foldl (fun best yv => if best.2 < yv.2 then yv else best) x

/-- `detect_language` (lines 401-440). -/
def detectLanguageL (text : List Char) : String :=
  match langScores text with
  | [] => "en"
  | x :: xs =>
    let m := pyMaxSnd x xs
    if m.2 = 0 then "en" else m.1

/-- String-level wrapper of `detect_language`. -/
def detectLanguage (text : String) : String := detectLanguageL text.data

/-- Score of one language on a text (for stating tie facts). -/
def langScoreOf (text : String) (lang : String) : Nat :=
  (((languageWords.find? (fun lw => lw.1 = lang)).map
    (fun lw => (lw.2.map (fun w => countOccur w.data (langSample text.data))).sum)).getD 0)

/-! ### 4.4 StructureAnalyzer: `analyze_document_structure` (lines 266-296)
and the `structure_patterns` table (lines 116-128).

Each pattern is applied with `re.match` (anchored at the start of the
already-stripped line); classification is first-match-wins in dict
insertion order, default `"text"`. -/

/-- Apostrophe and double-quote characters (written numerically). -/
def aposCh : Char := Char.ofNat 39

/-- The double-quote character. -/
def quoteCh : Char := Char.ofNat 34

/-- Opening and closing brace characters. -/
def lbraceCh : Char := Char.ofNat 123

/-- The closing brace character. -/
def rbraceCh : Char := Char.ofNat 125

/-- The bullet character of the `list_item` pattern. -/
def bulletCh : Char := Char.ofNat 8226

/-- The character class of the `heading` pattern
`^[A-Z\d\s.,;:\'\"&()[\]{}#*-]+$`. -/
def headingCls (c : Char) : Bool :=
  ('A' ≤ c && c ≤ 'Z') || isDigitCh c || isWs c ||
  c = '.' || c = ',' || c = ';' || c = ':' || c = aposCh || c = quoteCh ||
  c = '&' || c = '(' || c = ')' || c = '[' || c = ']' || c = lbraceCh ||
  c = rbraceCh || c = '#' || c = '*' || c = '-'

/-- `heading`: the whole (newline-free) line is a nonempty run of class
characters. -/
def matchHeading (l : List Char) : Bool := !l.isEmpty && l.all headingCls

/-- `\d+\.` anchored at the start. -/
def startsDigitsDot (l : List Char) : Bool :=
  !(l.takeWhile isDigitCh).isEmpty &&
  (match l.dropWhile isDigitCh with
   | c :: _ => c = '.'
   | [] => false)

/-- `\(\d+\)` anchored at the start. -/
def startsParenDigits (l : List Char) : Bool :=
  match l with
  | '(' :: rest =>
    !(rest.takeWhile isDigitCh).isEmpty &&
    (match rest.dropWhile isDigitCh with
     | ')' :: _ => true
     | _ => false)
  | _ => false

/-- ASCII lowercase letter, regex `[a-z]`. -/
def isLowerAlpha (c : Char) : Bool := 'a' ≤ c && c ≤ 'z'

/-- `\([a-z]\)` anchored at the start (third `section` alternative and the
whole `subsection` pattern). -/
def startsParenLower (l : List Char) : Bool :=
  match l with
  | '(' :: c :: ')' :: _ => isLowerAlpha c
  | _ => false

/-- `\d+\s*\.\s*\d+\s*\.` anchored at the start. -/
def startsNumDotNum (l : List Char) : Bool :=
  if (l.takeWhile isDigitCh).isEmpty then false
  else
    match (l.dropWhile isDigitCh).dropWhile isWs with
    | '.' :: r2 =>
      let r3 := r2.dropWhile isWs
      if (r3.takeWhile isDigitCh).isEmpty then false
      else
        match (r3.dropWhile isDigitCh).dropWhile isWs with
        | '.' :: _ => true
        | _ => false
    | _ => false

/-- `section`: `^(\d+\.|\(\d+\)|\([a-z]\)|\d+\s*\.\s*\d+\s*\.)`. -/
def matchSection (l : List Char) : Bool :=
  startsDigitsDot l || startsParenDigits l || startsParenLower l || startsNumDotNum l

/-- `subsection`: `^\([a-z]\)`. -/
def matchSubsection (l : List Char) : Bool := startsParenLower l

/-- `paragraph`: `^[a-z]\.`. -/
def matchParagraph (l : List Char) : Bool :=
  match l with
  | c :: '.' :: _ => isLowerAlpha c
  | _ => false

/-- Regex class `[ivxlcdm]` (lowercase roman numeral letters). -/
def isRoman (c : Char) : Bool :=
  c = 'i' || c = 'v' || c = 'x' || c = 'l' || c = 'c' || c = 'd' || c = 'm'

/-- `subparagraph`: `^\([ivxlcdm]+\)`. -/
def matchSubparagraph (l : List Char) : Bool :=
  match l with
  | '(' :: rest =>
    !(rest.takeWhile isRoman).isEmpty &&
    (match rest.dropWhile isRoman with
     | ')' :: _ => true
     | _ => false)
  | _ => false

/-- `definition`: `^"[^"]+"\s+means`. -/
def matchDefinition (l : List Char) : Bool :=
  match l with
  | q :: rest =>
    q = quoteCh &&
    !(rest.takeWhile (fun c => c ≠ quoteCh)).isEmpty &&
    (match rest.dropWhile (fun c => c ≠ quoteCh) with
     | q2 :: r2 =>
       q2 = quoteCh &&
       (match r2 with
        | c :: _ =>
          isWs c &&
          (stripLit ['m', 'e', 'a', 'n', 's'] (r2.dropWhile isWs)).isSome
        | [] => false)
     | [] => false)
  | [] => false

/-- `table_header`: `\|\s*\w+\s*\|` (anchored because `re.match` is used). -/
def matchTableHeader (l : List Char) : Bool :=
  match l with
  | '|' :: r1 =>
    let r2 := r1.dropWhile isWs
    !(r2.takeWhile isWordChar).isEmpty &&
    (match (r2.dropWhile isWordChar).dropWhile isWs with
     | '|' :: _ => true
     | _ => false)
  | _ => false

/-- `list_item`: `^\s*•\s+`. -/
def matchListItem (l : List Char) : Bool :=
  match l.dropWhile isWs with
  | c :: rest =>
    c = bulletCh &&
    (match rest with
     | d :: _ => isWs d
     | [] => false)
  | [] => false

/-- `footnote`: `^\s*\d+\.\s+`. -/
def matchFootnote (l : List Char) : Bool :=
  let r := l.dropWhile isWs
  !(r.takeWhile isDigitCh).isEmpty &&
  (match r.dropWhile isDigitCh with
   | c :: rest =>
     c = '.' &&
     (match rest with
      | c2 :: _ => isWs c2
      | [] => false)
   | [] => false)

/-- `preamble`: `^PREAMBLE`. -/
def matchPreamble (l : List Char) : Bool :=
  (stripLit ['P', 'R', 'E', 'A', 'M', 'B', 'L', 'E'] l).isSome

/-- `(stripLit "NOTES")` helper for the `endnote` pattern. -/
def hasNotesAt (r : List Char) : Bool :=
  (stripLit ['N', 'O', 'T', 'E', 'S'] r).isSome

/-- `endnote`: `^(END ?NOTES|NOTES)`. -/
def matchEndnote (l : List Char) : Bool :=
  (match stripLit ['E', 'N', 'D'] l with
   | some r =>
     hasNotesAt r ||
     (match r with
      | ' ' :: r2 => hasNotesAt r2
      | _ => false)
   | none => false) ||
  hasNotesAt l

/-- First-match-wins classification over `structure_patterns` in dict
insertion order (lines 281-286), default `"text"`. -/
def classifyLine (l : List Char) : String :=
  if matchHeading l then "heading"
  else if matchSection l then "section"
  else if matchSubsection l then "subsection"
  else if matchParagraph l then "paragraph"
  else if matchSubparagraph l then "subparagraph"
  else if matchDefinition l then "definition"
  else if matchTableHeader l then "table_header"
  else if matchListItem l then "list_item"
  else if matchFootnote l then "footnote"
  else if matchPreamble l then "preamble"
  else if matchEndnote l then "endnote"
  else "text"

/-- One element of a document structure (lines 288-292): original line
number, the stripped line text, and the assigned role. -/
structure StructElem where
  line_number : Nat
  text : String
  type : String
deriving DecidableEq

/-- `analyze_document_structure` (lines 266-296): split on newlines, strip
each line, skip blanks, classify the rest. -/
def analyzeDocumentStructure (text : List Char) : List StructElem :=
  (text.splitOn '\n').enum.filterMap (fun p =>
    let l := pyStrip p.2
    if l.isEmpty then none
    else some { line_number := p.1, text := String.mk l, type := classifyLine l })

/-! ### 4.3 CitationExtractor: `process_citations` (lines 247-264) and the
`citation_patterns` list (lines 92-113)

The eleven citation regexes are embedded into a small backtracking engine
with Python's preference order: an alternation tries its left branch first
and a greedy star consumes as much as possible before giving back. -/

/-- Regex abstract syntax sufficient for the citation patterns. -/
inductive RE where
  | eps : RE
  | cls (p : Char → Bool) : RE
  | seq (a b : RE) : RE
  | alt (a b : RE) : RE
  | star (a : RE) : RE

/-- Backtracking matcher in continuation style, Python preference order
(left alternative first, greedy star longest first).  `fuel` bounds the
call depth; `reFuel` below always suffices. -/
def reMatch {α : Type} : Nat → RE → List Char → (List Char → Option α) → Option α
  | 0, _, _, _ => none
  | _ + 1, RE.eps, s, k => k s
  | _ + 1, RE.cls p, s, k =>
    match s with
    | [] => none
    | c :: rest => if p c then k rest else none
  | fuel + 1, RE.seq a b, s, k => reMatch fuel a s (fun s1 => reMatch fuel b s1 k)
  | fuel + 1, RE.alt a b, s, k =>
    match reMatch fuel a s k with
    | some r => some r
    | none => reMatch fuel b s k
  | fuel + 1, RE.star a, s, k =>
    match reMatch fuel a s
        (fun s1 => if s1.length < s.length then reMatch fuel (RE.star a) s1 k else none) with
    | some r => some r
    | none => k s

/-- Structural size of a regex (for the fuel bound). -/
def reSize : RE → Nat
  | RE.eps => 1
  | RE.cls _ => 1
  | RE.seq a b => reSize a + reSize b + 1
  | RE.alt a b => reSize a + reSize b + 1
  | RE.star a => reSize a + 1

/-- Enough fuel for any match attempt of `r` on `s`. -/
def reFuel (r : RE) (s : List Char) : Nat := (reSize r + 2) * (s.length + 2)

/-- Length of the preferred (leftmost-greedy) match of `r` at the start of
`s`, Python `re.match` semantics. -/
def reMatchLen (r : RE) (s : List Char) : Option Nat :=
  match reMatch (reFuel r s) r s (fun rest => some rest) with
  | some rest => some (s.length - rest.length)
  | none => none

/-- Sequencing of a pattern list. -/
def reCat (l : List RE) : RE := l.foldr RE.seq RE.eps

/-- One literal character (used only for characters without case). -/
def reCh (c : Char) : RE := RE.cls (fun d => d = c)

/-- One literal character, case-insensitively (`re.IGNORECASE`). -/
def reChCi (c : Char) : RE := RE.cls (fun d => d.toLower = c.toLower)

/-- A case-insensitive literal word. -/
def reLitCi (w : String) : RE := reCat (w.data.map reChCi)

/-- `x+` as `x x*`. -/
def rePlus (a : RE) : RE := RE.seq a (RE.star a)

/-- Greedy `x?` as `x | ε`. -/
def reOpt (a : RE) : RE := RE.alt a RE.eps

/-- `\s*`. -/
def ws0RE : RE := RE.star (RE.cls isWs)

/-- `\s+`. -/
def ws1RE : RE := rePlus (RE.cls isWs)

/-- `\d+`. -/
def d1RE : RE := rePlus (RE.cls isDigitCh)

/-- `\d{4}`. -/
def d4RE : RE :=
  reCat [RE.cls isDigitCh, RE.cls isDigitCh, RE.cls isDigitCh, RE.cls isDigitCh]

/-- `\w+`. -/
def w1RE : RE := rePlus (RE.cls isWordChar)

/-- The `citation_patterns` list (lines 92-113) in source order; all are
applied with `re.IGNORECASE` (line 253).
0: `\d{4}\s*\(\s*\d+\s*\)\s*\w+\s*\d+\s*\(\w+\)`
1: `\[\d{4}\]\s*\w+\s*\d+\s*\(\w+\)`
2: `\d{4}\s*\(\d+\)\s*BCLR\s*\d+`
3: `Act\s+No\.\s*\d+\s+of\s+\d{4}`
4: `Act\s+\d+\s+of\s+\d{4}`
5: `section\s+\d+(\(\w+\))?`
6: `s\s*\d+(\(\w+\))?`
7: `Constitution`
8: `constitutional`
9: `GN\s+\d+`
10: `GG\s+\d+` -/
def citationPatterns : List RE :=
  [ reCat [d4RE, ws0RE, reCh '(', ws0RE, d1RE, ws0RE, reCh ')', ws0RE, w1RE,
           ws0RE, d1RE, ws0RE, reCh '(', w1RE, reCh ')']
  , reCat [reCh '[', d4RE, reCh ']', ws0RE, w1RE, ws0RE, d1RE, ws0RE, reCh '(',
           w1RE, reCh ')']
  , reCat [d4RE, ws0RE, reCh '(', d1RE, reCh ')', ws0RE, reLitCi "BCLR", ws0RE, d1RE]
  , reCat [reLitCi "Act", ws1RE, reLitCi "No.", ws0RE, d1RE, ws1RE, reLitCi "of",
           ws1RE, d4RE]
  , reCat [reLitCi "Act", ws1RE, d1RE, ws1RE, reLitCi "of", ws1RE, d4RE]
  , reCat [reLitCi "section", ws1RE, d1RE, reOpt (reCat [reCh '(', w1RE, reCh ')'])]
  , reCat [reLitCi "s", ws0RE, d1RE, reOpt (reCat [reCh '(', w1RE, reCh ')'])]
  , reLitCi "Constitution"
  , reLitCi "constitutional"
  , reCat [reLitCi "GN", ws1RE, d1RE]
  , reCat [reLitCi "GG", ws1RE, d1RE] ]

/-- `re.finditer` scan from `pos`: at each position take the preferred
match; on success resume after it (a zero-width match advances one
character, as in Python); on failure advance one character.  `fuel`
decreases at every step because the position strictly increases. -/
def finditerAux (r : RE) (s : List Char) : Nat → Nat → List (Nat × Nat)
  | 0, _ => []
  | fuel + 1, pos =>
    if pos > s.length then []
    else
      match reMatchLen r (s.drop pos) with
      | some len => (pos, pos + len) :: finditerAux r s fuel (pos + max len 1)
      | none =>
        if pos = s.length then []
        else finditerAux r s fuel (pos + 1)

/-- All `re.finditer` match spans of `r` on `s` as `(start, end)` offsets. -/
def pyFindIter (r : RE) (s : List Char) : List (Nat × Nat) :=
  finditerAux r s (s.length + 1) 0

/-- A `Citation` record (lines 255-261).  The source stores the pattern's
regex string under `pattern_type`; distinct patterns are represented here
by their index in `citationPatterns`. -/
structure Citation where
  text : String
  start : Nat
  stop : Nat
  pattern_type : Nat
  document_id : String
deriving DecidableEq

/-- `process_citations` (lines 247-264): for every pattern run `finditer`
and append every match — matches of different patterns are never merged or
deduplicated. -/
def processCitations (text : List Char) (docId : String) : List Citation :=
  (citationPatterns.enum.map (fun pr =>
    (pyFindIter pr.2 text).map (fun ab =>
      { text := String.mk ((text.drop ab.1).take (ab.2 - ab.1))
        start := ab.1
        stop := ab.2
        pattern_type := pr.1
        document_id := docId }))).flatten

/-! ### 4.6 PerDocumentProcessor: `process_file` (lines 473-527) and
4.10 PipelineOrchestrator: `process_directory` (lines 574-668)

File-system reads/writes and the NLTK sentence tokenizer are external to
the program; an `InputFile` carries the outcome (value or raised
exception) of each of those three external interactions, while every pure
stage is computed by the embedded functions above. -/

/-- `map_cross_references` (lines 298-316): resolve each citation; keep
those with a target. -/
def mapCrossReferences (citations : List Citation) : List CrossRef :=
  citations.filterMap (fun c =>
    match identifyTargetL c.text.data with
    | some t =>
      some { citation := c.text, target_document := String.mk t, location := c.start }
    | none => none)

/-- `count_element_types` (lines 548-554): frequency dict in first-seen
order. -/
def countElementTypes (elements : List StructElem) : List (String × Nat) :=
  elements.foldl
    (fun counts e =>
      if counts.any (fun kv => kv.1 = e.type) then
        counts.map (fun kv => if kv.1 = e.type then (kv.1, kv.2 + 1) else kv)
      else counts ++ [(e.type, 1)])
    []

/-- `os.path.basename`. -/
def pyBasename (p : List Char) : List Char :=
  (p.reverse.takeWhile (fun c => c ≠ '/')).reverse

/-- The stem of `os.path.splitext`: split at the last dot unless every
character before it is a dot. -/
def pySplitextStem (b : List Char) : List Char :=
  let r := b.reverse
  let e := r.takeWhile (fun c => c ≠ '.')
  if e.length = r.length then b
  else
    let stem := (r.drop (e.length + 1)).reverse
    if stem.isEmpty || stem.all (fun c => c = '.') then b else stem

/-- Is `sub` a contiguous substring (Python `in`)? -/
def containsSub : List Char → List Char → Bool
  | sub, [] => sub.isEmpty
  | sub, c :: rest => sub.isPrefixOf (c :: rest) || containsSub sub rest

/-- `infer_document_type` (lines 529-546): ordered substring checks over
the lowercased path. -/
def inferDocumentType (path : String) : String :=
  let p := path.data.map Char.toLower
  if containsSub "constitution".data p then "constitution"
  else if containsSub "core_legislation".data p || containsSub "act".data p then "act"
  else if containsSub "case_law".data p || containsSub "judgment".data p then "case"
  else if containsSub "regulation".data p then "regulation"
  else if containsSub "provincial".data p then "provincial_legislation"
  else if containsSub "municipal".data p || containsSub "bylaw".data p then "municipal_bylaw"
  else "unknown"

/-- The `doc_info` dict built by `process_file` (lines 500-513): exactly
these keys and no others — in particular no `title`, `date`, `version`,
`parent_act` or `references` key.  The nested `structure` dict is
flattened into `elements_count` / `element_types`. -/
structure DocInfo where
  id : String
  path : String
  type : String
  language : String
  citation_count : Nat
  elements_count : Nat
  element_types : List (String × Nat)
  cross_references : Nat
  reasoning_patterns : List (String × Nat)
deriving DecidableEq

/-- How the reduce stage's `doc_info.get(...)` calls read a `process_file`
record: the `type` key is present; `title`, `date`, `version`,
`parent_act` and `references` are absent. -/
def toMeta (d : DocInfo) : DocMeta :=
  { type := some d.type, title := none, date := none, version := none,
    parent_act := none, references := [] }

/-- One input file together with the outcomes of its external
interactions: `extractResult` is what `extract_text_from_file` produces
(text, or a raised exception), `reasoningCounts` the per-category match
counts `extract_legal_reasoning` would produce (or its exception — the
NLTK tokenizer is an external library), `saveResult` the outcome of the
four artifact writes of `save_processing_results`. -/
structure InputFile where
  path : String
  extractResult : Except String String
  reasoningCounts : Except String (List (String × Nat))
  saveResult : Except String Unit
deriving DecidableEq

/-- The `try` body of `process_file` (lines 475-523): any stage may raise;
an empty extraction result returns no record (with a warning) rather than
raising. -/
def processFileBody (f : InputFile) : Except String (Option (String × DocInfo)) := do
  let docId := String.mk (pySplitextStem (pyBasename f.path.data))
  let text ← f.extractResult
  if text.data.isEmpty then
    return none
  let citations := processCitations text.data docId
  let elements := analyzeDocumentStructure text.data
  let refs := mapCrossReferences citations
  let language := detectLanguageL text.data
  let reasoning ← f.reasoningCounts
  let info : DocInfo :=
    { id := docId
      path := f.path
      type := inferDocumentType f.path
      language := language
      citation_count := citations.length
      elements_count := elements.length
      element_types := countElementTypes elements
      cross_references := refs.length
      reasoning_patterns := reasoning }
  let _ ← f.saveResult
  return some (docId, info)

/-- `process_file` (lines 473-527): the whole body runs under
`try/except Exception`; a raised error is logged and `None` is returned. -/
def processFile (f : InputFile) : Option (String × DocInfo) :=
  match processFileBody f with
  | .ok r => r
  | .error _ => none

/-- Python dict assignment `documents[doc_id] = doc_info` (line 604): an
existing key keeps its insertion position and takes the new value; a new
key is appended. -/
def dictInsert (docs : List (String × DocInfo)) (k : String) (v : DocInfo) :
    List (String × DocInfo) :=
  if docs.any (fun p => p.1 = k) then
    docs.map (fun p => if p.1 = k then (k, v) else p)
  else docs ++ [(k, v)]

/-- One step of the map stage's collection loop (lines 599-605): a file
whose processing returned a record stores it under its document id. -/
def mapStep (docs : List (String × DocInfo)) (f : InputFile) : List (String × DocInfo) :=
  match processFile f with
  | none => docs
  | some (docId, info) => dictInsert docs docId info

/-- The map stage of `process_directory` (lines 594-606): the records of
the files whose processing returned one, collected into the `documents`
dict keyed by document id — a later succeeding file with the same
basename stem overwrites the earlier record. -/
def mapStage (files : List InputFile) : List (String × DocInfo) :=
  files.foldl mapStep []

/-- The collected records as the reduce stage reads them. -/
def metaOf (docs : List (String × DocInfo)) : List (String × DocMeta) :=
  docs.map (fun p => (p.1, toMeta p.2))

/-- `process_directory` (lines 574-668): map stage, then — when any record
was produced — the hierarchy graph, then temporal versioning (whose
`TypeError`, line 397, is not caught and aborts the run), then statistics.
The output-artifact writes themselves are external and modelled as
succeeding. -/
def processDirectory (files : List InputFile) : Except String (List (String × DocInfo)) :=
  let docs := mapStage files
  if docs.isEmpty then .ok []
  else
    let _g := modelLegalHierarchy (metaOf docs)
    match processTemporalVersioning (metaOf docs) with
    | .error e => .error e
    | .ok _ => .ok docs

/-! ### Auxiliary notions used in theorem statements -/

/-- Non-descending date keys (the order produced by an ascending stable
sort). -/
def dateLeE (a b : VersionEntry) : Prop := lexLt (entryKey b) (entryKey a) = false

/-- A version list sorted ascending by date key. -/
def SortedEntries (l : List VersionEntry) : Prop := List.Chain' dateLeE l

/-- Number of `"act"`-typed records in a collection of `process_file`
records. -/
def countActs (l : List (String × DocInfo)) : Nat :=
  l.countP (fun p => p.2.type = "act")

/-- Is this graph node the constitution node? -/
def isConstNode (n : String × NodeData) : Bool := n.1 = "constitution"

/-- The root node entry created by `model_legal_hierarchy` (line 342). -/
def rootEntry : String × NodeData := ("constitution", ⟨some 0, some "constitution"⟩)

/-- The version entries the acts of a record collection contribute (used to
characterise `ptvCollect` on `process_file` output). -/
def actEntriesOf (l : List (String × DocInfo)) : List VersionEntry :=
  l.filterMap (fun p =>
    if p.2.type = "act" then some ⟨p.1, none, "unknown", none⟩ else none)

/-! ### Concrete inputs for counterexamples and witnesses -/

/-- Three act versions of the Banks Act (spec §8 example). -/
def banksRecs : List (String × DocMeta) :=
  [ ("d1", ⟨some "act", some "Banks Act", some "2015", none, none, []⟩)
  , ("d2", ⟨some "act", some "Banks Act Amendment", some "2017", none, none, []⟩)
  , ("d3", ⟨some "act", some "Banks Act", some "1990", none, none, []⟩) ]

/-- Two act records of the same title, one without a date. -/
def c3BadRecs : List (String × DocMeta) :=
  [ ("d1", ⟨some "act", some "T", none, none, none, []⟩)
  , ("d2", ⟨some "act", some "T", some "2015", none, none, []⟩) ]

/-- A single document record whose id is `constitution` and whose type is
`act`. -/
def c7BadRecs : List (String × DocMeta) :=
  [("constitution", ⟨some "act", none, none, none, none, []⟩)]

/-- Two act-typed input files and one unreadable file. -/
def c1BadFiles : List InputFile :=
  [ ⟨"core_legislation/banks.txt", .ok "x", .ok [], .ok ()⟩
  , ⟨"core_legislation/companies.txt", .ok "y", .ok [], .ok ()⟩
  , ⟨"case_law/broken.pdf", .error "FileDataError", .ok [], .ok ()⟩ ]

/-- Nine readable case-law files plus one unreadable file. -/
def c1GoodFiles : List InputFile :=
  [ ⟨"case_law/a1.txt", .ok "x", .ok [], .ok ()⟩
  , ⟨"case_law/a2.txt", .ok "x", .ok [], .ok ()⟩
  , ⟨"case_law/a3.txt", .ok "x", .ok [], .ok ()⟩
  , ⟨"case_law/a4.txt", .ok "x", .ok [], .ok ()⟩
  , ⟨"case_law/a5.txt", .ok "x", .ok [], .ok ()⟩
  , ⟨"case_law/a6.txt", .ok "x", .ok [], .ok ()⟩
  , ⟨"case_law/a7.txt", .ok "x", .ok [], .ok ()⟩
  , ⟨"case_law/a8.txt", .ok "x", .ok [], .ok ()⟩
  , ⟨"case_law/a9.txt", .ok "x", .ok [], .ok ()⟩
  , ⟨"case_law/broken.pdf", .error "FileDataError", .ok [], .ok ()⟩ ]

/-- Two readable files whose basenames share the stem `x`: the map stage's
dict keeps one record for them, the later one. -/
def c1DupFiles : List InputFile :=
  [ ⟨"case_law/x.txt", .ok "x", .ok [], .ok ()⟩
  , ⟨"case_law/sub/x.txt", .ok "y", .ok [], .ok ()⟩ ]

/-- Two act records as produced by `process_file` (for the C8 witness). -/
def c8TwoActs : List (String × DocInfo) :=
  [ ("banks", ⟨"banks", "core_legislation/banks.txt", "act", "en", 0, 0, [], 0, []⟩)
  , ("companies", ⟨"companies", "core_legislation/companies.txt", "act", "en", 0, 0, [], 0, []⟩) ]

end SALegal

namespace SALegal

/-! ## Theorems -/

theorem dropWhile_append_all {p : Char → Bool} {w r : List Char}
    (h : ∀ c ∈ w, p c = true) : (w ++ r).dropWhile p = r.dropWhile p := by
  induction w with
  | nil => rfl
  | cons c t ih =>
    simp only [List.cons_append, List.dropWhile_cons]
    rw [h c (by simp)]
    exact ih (fun d hd => h d (by simp [hd]))

theorem dropWhile_headNot {p : Char → Bool} {r : List Char}
    (h : headNot p r = true) : r.dropWhile p = r := by
  cases r with
  | nil => rfl
  | cons c t =>
    simp only [headNot, Bool.not_eq_true'] at h
    simp [List.dropWhile_cons, h]

theorem takeWhile_append_all {p : Char → Bool} {w r : List Char}
    (h : ∀ c ∈ w, p c = true) : (w ++ r).takeWhile p = w ++ r.takeWhile p := by
  induction w with
  | nil => rfl
  | cons c t ih =>
    simp only [List.cons_append, List.takeWhile_cons]
    rw [h c (by simp)]
    simp only [if_pos, List.cons.injEq, true_and]
    exact ih (fun d hd => h d (by simp [hd]))

theorem takeWhile_headNot {p : Char → Bool} {r : List Char}
    (h : headNot p r = true) : r.takeWhile p = [] := by
  cases r with
  | nil => rfl
  | cons c t =>
    simp only [headNot, Bool.not_eq_true'] at h
    simp [List.takeWhile_cons, h]

theorem takeWhile_all (p : Char → Bool) (l : List Char) :
    ∀ c ∈ l.takeWhile p, p c = true := by
  induction l with
  | nil => simp
  | cons c t ih =>
    by_cases h : p c
    · simp only [List.takeWhile_cons, h, if_true]
      intro d hmem
      rcases List.mem_cons.mp hmem with he | he
      · exact he ▸ h
      · exact ih d he
    · simp [List.takeWhile_cons, h]

theorem headNot_dropWhile (p : Char → Bool) (l : List Char) :
    headNot p (l.dropWhile p) = true := by
  induction l with
  | nil => rfl
  | cons c t ih =>
    by_cases h : p c
    · simpa [List.dropWhile_cons, h] using ih
    · simp [List.dropWhile_cons, h, headNot]

theorem takeWhile_append_dropWhile' (p : Char → Bool) (l : List Char) :
    l.takeWhile p ++ l.dropWhile p = l := List.takeWhile_append_dropWhile p l

/-! ### Generic fold-invariant helpers -/

theorem foldl_inv {α β : Type} (Inv : α → Prop) (f : α → β → α)
    (hstep : ∀ a b, Inv a → Inv (f a b)) :
    ∀ (l : List β) (a : α), Inv a → Inv (l.foldl f a) := by
  intro l
  induction l with
  | nil => intro a h; exact h
  | cons b t ih => intro a h; exact ih (f a b) (hstep a b h)

theorem foldl_inv_mem {α β : Type} (Inv : α → Prop) (f : α → β → α) :
    ∀ (l : List β), (∀ a b, b ∈ l → Inv a → Inv (f a b)) →
      ∀ (a : α), Inv a → Inv (l.foldl f a) := by
  intro l
  induction l with
  | nil => intro _ a h; exact h
  | cons b t ih =>
    intro hstep a h
    exact ih (fun a2 b2 hb2 => hstep a2 b2 (by simp [hb2])) (f a b)
      (hstep a b (by simp) h)

/-! ### Claim C6: PDF extraction fallback

The claim says the fallback fires both when the primary method throws and
when it yields no usable text.  The source (lines 180-203) reaches the
PyPDF2 fallback only from the `except` branch: a successful but empty
PyMuPDF extraction is returned unchanged.  The claim is corrected
accordingly. -/

/-- C6 counterexample: a PDF on which PyMuPDF succeeds with empty text
while PyPDF2 would recover text.  `extract_text_from_pdf` returns the
empty string, not the fallback text the claim promises. -/
theorem C6_pdf_fallback_counterexample :
    extractTextFromPdf ⟨"doc.pdf", .ok "", .ok "recovered text"⟩ = "" ∧
    ("" : String) ≠ "recovered text" := by
  constructor
  · rfl
  · decide

/-- C6 (amended): `extract_text_from_pdf` returns the PyMuPDF text
whenever PyMuPDF does not raise (even when that text is empty); the PyPDF2
fallback fires exactly when PyMuPDF raises, and if PyPDF2 also raises the
result is the empty string. -/
theorem C6_pdf_fallback_amended :
    (∀ (f : PdfFile) (t : String), f.fitzResult = .ok t → extractTextFromPdf f = t) ∧
    (∀ (f : PdfFile) (e : String) (t : String),
      f.fitzResult = .error e → f.pypdf2Result = .ok t → extractTextFromPdf f = t) ∧
    (∀ (f : PdfFile) (e1 e2 : String),
      f.fitzResult = .error e1 → f.pypdf2Result = .error e2 → extractTextFromPdf f = "") := by
  refine ⟨?_, ?_, ?_⟩
  · intro f t h
    simp [extractTextFromPdf, h]
  · intro f e t h1 h2
    simp [extractTextFromPdf, h1, h2]
  · intro f e1 e2 h1 h2
    simp [extractTextFromPdf, h1, h2]

/-- C6 witness: the amended fallback behaviour at concrete PDFs. -/
theorem C6_pdf_fallback_witness :
    extractTextFromPdf ⟨"a.pdf", .error "boom", .ok "fallback"⟩ = "fallback" ∧
    extractTextFromPdf ⟨"b.pdf", .ok "primary", .error "x"⟩ = "primary" ∧
    extractTextFromPdf ⟨"c.pdf", .error "boom", .error "crash"⟩ = "" :=
  ⟨C6_pdf_fallback_amended.2.1 ⟨"a.pdf", .error "boom", .ok "fallback"⟩ "boom" "fallback" rfl rfl,
   C6_pdf_fallback_amended.1 ⟨"b.pdf", .ok "primary", .error "x"⟩ "primary" rfl,
   C6_pdf_fallback_amended.2.2 ⟨"c.pdf", .error "boom", .error "crash"⟩ "boom" "crash" rfl rfl⟩

/-! ### Graph-operation lemmas (for claims C7 and C9) -/

theorem addNodeG_countP_const (g : Graph) (id : String) (lvl : Nat) (ty : String)
    (h : g.nodes.countP isConstNode = 1) :
    (addNodeG g id lvl ty).nodes.countP isConstNode = 1 := by
  unfold addNodeG
  cases hp : g.nodes.any (fun n => n.1 = id) with
  | true =>
    simp only [hp, if_true]
    rw [List.countP_map]
    rw [List.countP_congr]
    · exact h
    · intro n _
      simp only [Function.comp_apply, isConstNode]
      by_cases he : n.1 = id
      · simp [he]
      · simp [he]
  | false =>
    simp only [hp, Bool.false_eq_true, if_false]
    rw [List.countP_append]
    by_cases hid : id = "constitution"
    · exfalso
      have hz : g.nodes.countP isConstNode = 0 := by
        apply List.countP_eq_zero.mpr
        intro n hn hcontra
        have h2 := List.any_eq_false.mp hp n hn
        simp only [decide_eq_true_eq] at h2
        simp only [isConstNode, decide_eq_true_eq] at hcontra
        exact h2 (hcontra.trans hid.symm)
      omega
    · have : isConstNode (id, ⟨some lvl, some ty⟩) = false := by
        simp [isConstNode, hid]
      simp [this, h]

theorem ensureNode_countP_const (g : Graph) (id : String)
    (h : g.nodes.countP isConstNode = 1) :
    (ensureNode g id).nodes.countP isConstNode = 1 := by
  unfold ensureNode
  cases hp : g.nodes.any (fun n => n.1 = id) with
  | true => simpa [hp] using h
  | false =>
    simp only [hp, Bool.false_eq_true, if_false]
    rw [List.countP_append]
    by_cases hid : id = "constitution"
    · exfalso
      have hz : g.nodes.countP isConstNode = 0 := by
        apply List.countP_eq_zero.mpr
        intro n hn hcontra
        have h2 := List.any_eq_false.mp hp n hn
        simp only [decide_eq_true_eq] at h2
        simp only [isConstNode, decide_eq_true_eq] at hcontra
        exact h2 (hcontra.trans hid.symm)
      omega
    · have : isConstNode (id, ⟨none, none⟩) = false := by
        simp [isConstNode, hid]
      simp [this, h]

theorem addEdgeG_countP_const (g : Graph) (src tgt : String) (rel : Option String)
    (h : g.nodes.countP isConstNode = 1) :
    (addEdgeG g src tgt rel).nodes.countP isConstNode = 1 := by
  unfold addEdgeG
  have h1 : (ensureNode (ensureNode g src) tgt).nodes.countP isConstNode = 1 :=
    ensureNode_countP_const _ _ (ensureNode_countP_const _ _ h)
  cases hp : (ensureNode (ensureNode g src) tgt).edges.any
      (fun e => e.1 = src && e.2.1 = tgt) with
  | true => simpa [hp] using h1
  | false => simpa [hp] using h1

theorem hierarchyStep_countP_const (g : Graph) (doc : String × DocMeta)
    (h : g.nodes.countP isConstNode = 1) :
    (hierarchyStep g doc).nodes.countP isConstNode = 1 := by
  unfold hierarchyStep
  by_cases ha : doc.2.type.getD "unknown" = "act"
  · simp only [ha, if_true]
    exact addEdgeG_countP_const _ _ _ _ (addNodeG_countP_const _ _ _ _ h)
  · simp only [ha, if_false]
    by_cases hr : doc.2.type.getD "unknown" = "regulation"
    · simp only [hr, if_true]
      cases hpa : doc.2.parent_act with
      | none => exact h
      | some p =>
        by_cases hc : p ≠ "" && hasNode g p
        · simp only [hc, if_true]
          exact addEdgeG_countP_const _ _ _ _ (addNodeG_countP_const _ _ _ _ h)
        · simp only [hc, if_false]
          exact h
    · simp only [hr, if_false]
      by_cases hcs : doc.2.type.getD "unknown" = "case"
      · simp only [hcs, if_true]
        refine foldl_inv (fun g2 => g2.nodes.countP isConstNode = 1)
          (fun g2 ref =>
            if hasNode g2 ref.target_document then
              addEdgeG g2 ref.target_document doc.1 (some "interprets")
            else g2)
          ?_ doc.2.references _ ?_
        · intro g2 ref h2
          by_cases hn : hasNode g2 ref.target_document
          · simpa [hn] using addEdgeG_countP_const g2 _ _ _ h2
          · simpa [hn] using h2
        · exact addNodeG_countP_const _ _ _ _ h
      · simp only [hcs, if_false]
        exact h

theorem ensureNode_mem_root (g : Graph) (id : String)
    (h : rootEntry ∈ g.nodes) : rootEntry ∈ (ensureNode g id).nodes := by
  unfold ensureNode
  cases hp : g.nodes.any (fun n => n.1 = id) with
  | true => simpa [hp] using h
  | false =>
    simp only [hp, Bool.false_eq_true, if_false]
    exact List.mem_append_left _ h

theorem addNodeG_mem_root (g : Graph) (id : String) (lvl : Nat) (ty : String)
    (hid : id ≠ "constitution") (h : rootEntry ∈ g.nodes) :
    rootEntry ∈ (addNodeG g id lvl ty).nodes := by
  unfold addNodeG
  cases hp : g.nodes.any (fun n => n.1 = id) with
  | true =>
    simp only [hp, if_true]
    have : rootEntry =
        (fun n => if n.1 = id then (id, (⟨some lvl, some ty⟩ : NodeData)) else n) rootEntry := by
      simp only [rootEntry]
      rw [if_neg]
      intro he
      exact hid (by simpa using he.symm)
    rw [this]
    exact List.mem_map_of_mem _ h
  | false =>
    simp only [hp, Bool.false_eq_true, if_false]
    exact List.mem_append_left _ h

theorem addEdgeG_mem_root (g : Graph) (src tgt : String) (rel : Option String)
    (h : rootEntry ∈ g.nodes) : rootEntry ∈ (addEdgeG g src tgt rel).nodes := by
  unfold addEdgeG
  have h1 : rootEntry ∈ (ensureNode (ensureNode g src) tgt).nodes :=
    ensureNode_mem_root _ _ (ensureNode_mem_root _ _ h)
  cases hp : (ensureNode (ensureNode g src) tgt).edges.any
      (fun e => e.1 = src && e.2.1 = tgt) with
  | true => simpa [hp] using h1
  | false => simpa [hp] using h1

theorem find?_of_countP_one {α : Type} (p : α → Bool) :
    ∀ (l : List α) (x : α), l.countP p = 1 → x ∈ l → p x = true → l.find? p = some x := by
  intro l
  induction l with
  | nil => intro x _ hx; exact absurd hx (List.not_mem_nil x)
  | cons a t ih =>
    intro x hc hx hpx
    by_cases hpa : p a = true
    · rw [List.find?_cons_of_pos _ hpa]
      rcases List.mem_cons.mp hx with he | he
      · rw [he]
      · exfalso
        rw [List.countP_cons, if_pos hpa] at hc
        have hz : t.countP p = 0 := by omega
        exact absurd hpx (by simpa using List.countP_eq_zero.mp hz x he)
    · rw [List.find?_cons_of_neg _ hpa]
      rcases List.mem_cons.mp hx with he | he
      · exact absurd (he ▸ hpx) hpa
      · apply ih x _ he hpx
        rw [List.countP_cons, if_neg hpa] at hc
        omega

theorem hierarchyStep_mem_root (g : Graph) (doc : String × DocMeta)
    (hdoc : doc.1 = "constitution" →
      doc.2.type.getD "unknown" ≠ "act" ∧ doc.2.type.getD "unknown" ≠ "regulation" ∧
      doc.2.type.getD "unknown" ≠ "case")
    (h : rootEntry ∈ g.nodes) : rootEntry ∈ (hierarchyStep g doc).nodes := by
  unfold hierarchyStep
  by_cases ha : doc.2.type.getD "unknown" = "act"
  · simp only [ha, if_true]
    have hid : doc.1 ≠ "constitution" := fun he => (hdoc he).1 ha
    exact addEdgeG_mem_root _ _ _ _ (addNodeG_mem_root _ _ _ _ hid h)
  · simp only [ha, if_false]
    by_cases hr : doc.2.type.getD "unknown" = "regulation"
    · simp only [hr, if_true]
      cases hpa : doc.2.parent_act with
      | none => exact h
      | some p =>
        by_cases hcnd : p ≠ "" && hasNode g p
        · simp only [hcnd, if_true]
          have hid : doc.1 ≠ "constitution" := fun he => (hdoc he).2.1 hr
          exact addEdgeG_mem_root _ _ _ _ (addNodeG_mem_root _ _ _ _ hid h)
        · simp only [hcnd, if_false]
          exact h
    · simp only [hr, if_false]
      by_cases hcs : doc.2.type.getD "unknown" = "case"
      · simp only [hcs, if_true]
        have hid : doc.1 ≠ "constitution" := fun he => (hdoc he).2.2 hcs
        refine foldl_inv (fun g2 => rootEntry ∈ g2.nodes)
          (fun g2 ref =>
            if hasNode g2 ref.target_document then
              addEdgeG g2 ref.target_document doc.1 (some "interprets")
            else g2)
          ?_ doc.2.references _ ?_
        · intro g2 ref h2
          by_cases hn : hasNode g2 ref.target_document
          · simpa [hn] using addEdgeG_mem_root g2 _ _ _ h2
          · simpa [hn] using h2
        · exact addNodeG_mem_root _ _ _ _ hid h
      · simp only [hcs, if_false]
        exact h

/-! ### Claim C7: constitution root invariant

The claim asserts the root node keeps level 0 and type `"constitution"`
whatever the ids and types of the processed documents.  networkx
`add_node` *updates* the attributes of an existing node, so a record with
id `constitution` and type `act` overwrites the root's attributes (and
`add_edge` then attaches a self-loop).  The claim is corrected. -/

/-- C7 counterexample: a single record with id `constitution` and type
`act` leaves exactly one `constitution` node but with level 1 and type
`act`, so in particular the level is no longer 0. -/
theorem C7_constitution_root_counterexample :
    (modelLegalHierarchy c7BadRecs).nodes.countP isConstNode = 1 ∧
    lookupNode (modelLegalHierarchy c7BadRecs) "constitution" =
      some ⟨some 1, some "act"⟩ ∧
    lookupNode (modelLegalHierarchy c7BadRecs) "constitution" ≠
      some ⟨some 0, some "constitution"⟩ := by
  refine ⟨by decide, by decide, by decide⟩

/-- C7 (amended): the graph always contains exactly one node with id
`constitution`, for every input collection including the empty one; and
that node has level 0 and type `constitution` provided no input record
carries the id `constitution` together with type `act`, `regulation` or
`case` (as is the case for every record `process_file` can produce). -/
theorem C7_constitution_root_amended (docs : List (String × DocMeta)) :
    ((modelLegalHierarchy docs).nodes.countP isConstNode = 1) ∧
    ((∀ p ∈ docs, p.1 = "constitution" →
        p.2.type.getD "unknown" ≠ "act" ∧ p.2.type.getD "unknown" ≠ "regulation" ∧
        p.2.type.getD "unknown" ≠ "case") →
      lookupNode (modelLegalHierarchy docs) "constitution" =
        some ⟨some 0, some "constitution"⟩) := by
  constructor
  · unfold modelLegalHierarchy
    exact foldl_inv (fun g => g.nodes.countP isConstNode = 1) hierarchyStep
      (fun g doc hg => hierarchyStep_countP_const g doc hg) docs
      (addNodeG ⟨[], []⟩ "constitution" 0 "constitution") (by decide)
  · intro hdocs
    have hinv : (modelLegalHierarchy docs).nodes.countP isConstNode = 1 ∧
        rootEntry ∈ (modelLegalHierarchy docs).nodes := by
      unfold modelLegalHierarchy
      refine foldl_inv_mem
        (fun g => g.nodes.countP isConstNode = 1 ∧ rootEntry ∈ g.nodes)
        hierarchyStep docs ?_
        (addNodeG ⟨[], []⟩ "constitution" 0 "constitution") (by constructor <;> decide)
      intro g doc hmem hg
      exact ⟨hierarchyStep_countP_const g doc hg.1,
        hierarchyStep_mem_root g doc (hdocs doc hmem) hg.2⟩
    have hfind : (modelLegalHierarchy docs).nodes.find? isConstNode = some rootEntry :=
      find?_of_countP_one isConstNode _ rootEntry hinv.1 hinv.2 (by decide)
    have hf2 : (modelLegalHierarchy docs).nodes.find?
        (fun n => n.1 = "constitution") = some rootEntry := hfind
    unfold lookupNode
    rw [hf2]
    rfl

/-- C7 witness: a one-act collection keeps the root at level 0 with type
`constitution`. -/
theorem C7_constitution_root_witness :
    lookupNode (modelLegalHierarchy [("a1", ⟨some "act", none, none, none, none, []⟩)])
      "constitution" = some ⟨some 0, some "constitution"⟩ :=
  (C7_constitution_root_amended
    [("a1", ⟨some "act", none, none, none, none, []⟩)]).2 (by decide)

theorem addNodeG_nodes_sub (g : Graph) (id : String) (lvl : Nat) (ty : String) :
    ∀ n ∈ (addNodeG g id lvl ty).nodes, n ∈ g.nodes ∨ n = (id, ⟨some lvl, some ty⟩) := by
  unfold addNodeG
  cases hp : g.nodes.any (fun n => n.1 = id) with
  | true =>
    simp only [hp, if_true]
    intro n hn
    rcases List.mem_map.mp hn with ⟨m, hm, he⟩
    by_cases hc : m.1 = id
    · right; rw [← he, if_pos hc]
    · left; rw [← he, if_neg hc]; exact hm
  | false =>
    simp only [hp, Bool.false_eq_true, if_false]
    intro n hn
    rcases List.mem_append.mp hn with hl | hr
    · exact Or.inl hl
    · exact Or.inr (by simpa using hr)

theorem ensureNode_nodes_sub (g : Graph) (id : String) :
    ∀ n ∈ (ensureNode g id).nodes, n ∈ g.nodes ∨ n = (id, ⟨none, none⟩) := by
  unfold ensureNode
  cases hp : g.nodes.any (fun n => n.1 = id) with
  | true => intro n hn; exact Or.inl (by simpa [hp] using hn)
  | false =>
    simp only [hp, Bool.false_eq_true, if_false]
    intro n hn
    rcases List.mem_append.mp hn with hl | hr
    · exact Or.inl hl
    · exact Or.inr (by simpa using hr)

theorem addNodeG_edges_eq (g : Graph) (id : String) (lvl : Nat) (ty : String) :
    (addNodeG g id lvl ty).edges = g.edges := by
  unfold addNodeG
  cases hp : g.nodes.any (fun n => n.1 = id) with
  | true => simp [hp]
  | false => simp [hp]

theorem ensureNode_edges_eq (g : Graph) (id : String) :
    (ensureNode g id).edges = g.edges := by
  unfold ensureNode
  cases hp : g.nodes.any (fun n => n.1 = id) with
  | true => simp [hp]
  | false => simp [hp]

theorem addEdgeG_nodes_sub (g : Graph) (src tgt : String) (rel : Option String) :
    ∀ n ∈ (addEdgeG g src tgt rel).nodes,
      n ∈ g.nodes ∨ n = (src, ⟨none, none⟩) ∨ n = (tgt, ⟨none, none⟩) := by
  unfold addEdgeG
  intro n hn
  have hn2 : n ∈ (ensureNode (ensureNode g src) tgt).nodes := by
    cases hp : (ensureNode (ensureNode g src) tgt).edges.any
        (fun e => e.1 = src && e.2.1 = tgt) with
    | true => simpa [hp] using hn
    | false => simpa [hp] using hn
  rcases ensureNode_nodes_sub _ _ n hn2 with h1 | h1
  · rcases ensureNode_nodes_sub _ _ n h1 with h2 | h2
    · exact Or.inl h2
    · exact Or.inr (Or.inl h2)
  · exact Or.inr (Or.inr h1)

theorem addEdgeG_edges_sub (g : Graph) (src tgt : String) (rel : Option String) :
    ∀ e ∈ (addEdgeG g src tgt rel).edges, e ∈ g.edges ∨ e = (src, tgt, rel) := by
  intro e he
  simp only [addEdgeG, ensureNode_edges_eq, apply_ite Graph.edges] at he
  cases hp : g.edges.any (fun e2 => e2.1 = src && e2.2.1 = tgt) with
  | true =>
    simp only [hp, if_true] at he
    rcases List.mem_map.mp he with ⟨m, hm, he2⟩
    by_cases hc : m.1 = src && m.2.1 = tgt
    · right; rw [← he2, if_pos hc]
    · left; rw [← he2, if_neg hc]; exact hm
  | false =>
    simp only [hp, Bool.false_eq_true, if_false] at he
    rcases List.mem_append.mp he with hl | hr
    · exact Or.inl hl
    · exact Or.inr (by simpa using hr)

/-! ### Claim C9: `process_file` records yield no regulation nodes and only
unlabelled constitution-to-act edges

A `process_file` record has no `parent_act` and no `references` key
(lines 500-513), so the regulation branch of `model_legal_hierarchy` never
adds a node and the case branch never adds an `interprets` edge. -/

/-- C9: over any collection of `process_file` records, every edge of the
hierarchy graph goes from `constitution` to the node of an `"act"`-typed
record and carries no relation label, and no node is regulation-typed. -/
theorem C9_hierarchy_from_records (l : List (String × DocInfo)) :
    (∀ e ∈ (modelLegalHierarchy (metaOf l)).edges,
      e.1 = "constitution" ∧ e.2.2 = none ∧
      ∃ d ∈ l, d.1 = e.2.1 ∧ d.2.type = "act") ∧
    (∀ n ∈ (modelLegalHierarchy (metaOf l)).nodes, n.2.type ≠ some "regulation") := by
  unfold modelLegalHierarchy
  refine foldl_inv_mem
    (fun g =>
      (∀ e ∈ g.edges, e.1 = "constitution" ∧ e.2.2 = none ∧
        ∃ d ∈ l, d.1 = e.2.1 ∧ d.2.type = "act") ∧
      (∀ n ∈ g.nodes, n.2.type ≠ some "regulation"))
    hierarchyStep (metaOf l) ?_
    (addNodeG ⟨[], []⟩ "constitution" 0 "constitution") ?_
  · intro g doc hdoc hg
    rcases List.mem_map.mp hdoc with ⟨p, hp, hpe⟩
    unfold hierarchyStep
    rw [← hpe]
    simp only [toMeta, Option.getD_some]
    by_cases ha : p.2.type = "act"
    · simp only [ha, if_true]
      constructor
      · intro e he
        rcases addEdgeG_edges_sub _ _ _ _ e he with h1 | h1
        · rw [addNodeG_edges_eq] at h1
          exact hg.1 e h1
        · refine ⟨by rw [h1], by rw [h1], p, hp, by rw [h1], ha⟩
      · intro n hn
        rcases addEdgeG_nodes_sub _ _ _ _ n hn with h1 | h1 | h1
        · rcases addNodeG_nodes_sub _ _ _ _ n h1 with h2 | h2
          · exact hg.2 n h2
          · rw [h2]; simp
        · rw [h1]; simp
        · rw [h1]; simp
    · simp only [ha, if_false]
      by_cases hr : p.2.type = "regulation"
      · simp only [hr, if_true]
        exact hg
      · simp only [hr, if_false]
        by_cases hcs : p.2.type = "case"
        · simp only [hcs, if_true, List.foldl_nil]
          constructor
          · intro e he
            rw [addNodeG_edges_eq] at he
            exact hg.1 e he
          · intro n hn
            rcases addNodeG_nodes_sub _ _ _ _ n hn with h2 | h2
            · exact hg.2 n h2
            · rw [h2]; simp
        · simp only [hcs, if_false]
          exact hg
  · constructor
    · intro e he
      have hedges : (addNodeG ⟨[], []⟩ "constitution" 0 "constitution").edges = [] := rfl
      rw [hedges] at he
      exact absurd he (List.not_mem_nil e)
    · intro n hn
      have hnodes : (addNodeG ⟨[], []⟩ "constitution" 0 "constitution").nodes =
          [("constitution", ⟨some 0, some "constitution"⟩)] := rfl
      rw [hnodes] at hn
      rw [List.mem_singleton.mp hn]
      decide

/-- C9 witness: a concrete two-record collection (one act, one case)
yields the single unlabelled edge from `constitution` to the act node and
no regulation node. -/
theorem C9_hierarchy_from_records_witness :
    (("constitution", "banks", (none : Option String)) : String × String × Option String).1
        = "constitution" ∧
    ∃ d ∈ c8TwoActs, d.1 = "banks" ∧ d.2.type = "act" := by
  have h := (C9_hierarchy_from_records c8TwoActs).1
    ("constitution", "banks", none) (by decide)
  exact ⟨h.1, h.2.2⟩

/-! ### Temporal-versioning lemmas (for claims C3, C8 and C1) -/

theorem matchBase_nil : matchBase [] = some [] := rfl

theorem ptvStep_meta_act (gs : List (List Char × List VersionEntry))
    (p : String × DocInfo) (ha : p.2.type = "act") :
    ptvStep gs (p.1, toMeta p.2) =
      addToGroups gs [] ⟨p.1, none, "unknown", none⟩ := by
  simp [ptvStep, toMeta, ha, matchBase, matchBaseAux, remOk, dollarOk, pyStrip]

theorem ptvStep_meta_nonact (gs : List (List Char × List VersionEntry))
    (p : String × DocInfo) (ha : p.2.type ≠ "act") :
    ptvStep gs (p.1, toMeta p.2) = gs := by
  have : (toMeta p.2).type ≠ some "act" := by
    simp only [toMeta, Option.some.injEq]
    simpa using ha
  simp [ptvStep, this]

theorem ptv_collect_meta_aux (l : List (String × DocInfo)) :
    ∀ es : List VersionEntry,
      (metaOf l).foldl ptvStep [([], es)] = [([], es ++ actEntriesOf l)] := by
  induction l with
  | nil => intro es; simp [metaOf, actEntriesOf]
  | cons p t ih =>
    intro es
    simp only [metaOf, List.map_cons, List.foldl_cons]
    by_cases ha : p.2.type = "act"
    · rw [ptvStep_meta_act _ _ ha]
      have hadd : addToGroups [([], es)] [] ⟨p.1, none, "unknown", none⟩ =
          [([], es ++ [⟨p.1, none, "unknown", none⟩])] := by
        simp [addToGroups]
      rw [hadd]
      have h2 := ih (es ++ [⟨p.1, none, "unknown", none⟩])
      simp only [metaOf] at h2
      rw [h2]
      have hact : actEntriesOf (p :: t) =
          ⟨p.1, none, "unknown", none⟩ :: actEntriesOf t := by
        simp [actEntriesOf, List.filterMap_cons, ha]
      rw [hact, List.append_assoc]
      rfl
    · rw [ptvStep_meta_nonact _ _ ha]
      have h2 := ih es
      simp only [metaOf] at h2
      rw [h2]
      have hact : actEntriesOf (p :: t) = actEntriesOf t := by
        simp [actEntriesOf, List.filterMap_cons, ha]
      rw [hact]

theorem ptv_collect_meta (l : List (String × DocInfo)) :
    ptvCollect (metaOf l) =
      if actEntriesOf l = [] then [] else [([], actEntriesOf l)] := by
  induction l with
  | nil => simp [ptvCollect, metaOf, actEntriesOf]
  | cons p t ih =>
    by_cases ha : p.2.type = "act"
    · have hact : actEntriesOf (p :: t) =
          ⟨p.1, none, "unknown", none⟩ :: actEntriesOf t := by
        simp [actEntriesOf, List.filterMap_cons, ha]
      unfold ptvCollect
      simp only [metaOf, List.map_cons, List.foldl_cons]
      rw [ptvStep_meta_act _ _ ha]
      have hadd : addToGroups [] [] ⟨p.1, none, "unknown", none⟩ =
          [([], [⟨p.1, none, "unknown", none⟩])] := by
        simp [addToGroups]
      rw [hadd]
      have h2 := ptv_collect_meta_aux t [⟨p.1, none, "unknown", none⟩]
      simp only [metaOf] at h2
      rw [h2, hact]
      simp
    · have hact : actEntriesOf (p :: t) = actEntriesOf t := by
        simp [actEntriesOf, List.filterMap_cons, ha]
      unfold ptvCollect
      simp only [metaOf, List.map_cons, List.foldl_cons]
      rw [ptvStep_meta_nonact _ _ ha]
      rw [hact]
      unfold ptvCollect metaOf at ih
      exact ih

theorem actEntriesOf_length (l : List (String × DocInfo)) :
    (actEntriesOf l).length = countActs l := by
  induction l with
  | nil => rfl
  | cons p t ih =>
    by_cases ha : p.2.type = "act"
    · simp [actEntriesOf, List.filterMap_cons, ha, countActs, List.countP_cons] at ih ⊢
      omega
    · simp [actEntriesOf, List.filterMap_cons, ha, countActs, List.countP_cons] at ih ⊢
      exact ih

theorem actEntriesOf_dates (l : List (String × DocInfo)) :
    ∀ e ∈ actEntriesOf l, e.date = none := by
  intro e he
  rcases List.mem_filterMap.mp he with ⟨p, _, hp⟩
  by_cases ha : p.2.type = "act"
  · rw [if_pos ha] at hp
    cases hp
    rfl
  · rw [if_neg ha] at hp
    cases hp

/-! ### Claim C8: records from `process_file` abort temporal versioning

`process_file` records carry no `title` and no `date` key, so every
`"act"`-typed record lands in the single group keyed by the empty string
with date `None`; sorting such a group of two or more entries compares
`None` and raises `TypeError`, aborting the reduce stage. -/

/-- C8: over `process_file` records, every temporal group is keyed by the
empty string with all dates `None`, and two or more act-typed records make
`process_temporal_versioning` raise `TypeError`. -/
theorem C8_temporal_abort (l : List (String × DocInfo)) :
    (∀ g ∈ ptvCollect (metaOf l), g.1 = [] ∧ ∀ e ∈ g.2, e.date = none) ∧
    (2 ≤ countActs l →
      processTemporalVersioning (metaOf l) = .error "TypeError") := by
  constructor
  · intro g hg
    rw [ptv_collect_meta] at hg
    by_cases he : actEntriesOf l = []
    · rw [if_pos he] at hg
      exact absurd hg (List.not_mem_nil g)
    · rw [if_neg he] at hg
      rw [List.mem_singleton.mp hg]
      exact ⟨rfl, actEntriesOf_dates l⟩
  · intro hc
    have hne : actEntriesOf l ≠ [] := by
      intro h0
      have hlen := actEntriesOf_length l
      rw [h0] at hlen
      simp only [List.length_nil] at hlen
      omega
    have hsort : pySortEntries (actEntriesOf l) = .error "TypeError" := by
      unfold pySortEntries
      rw [if_pos]
      rw [Bool.and_eq_true]
      constructor
      · have : (actEntriesOf l).length = countActs l := actEntriesOf_length l
        simp only [decide_eq_true_eq]
        omega
      · rcases List.exists_mem_of_ne_nil (actEntriesOf l) hne with ⟨e, hmem⟩
        exact List.any_eq_true.mpr
          ⟨e, hmem, by simp [actEntriesOf_dates l e hmem]⟩
    unfold processTemporalVersioning
    rw [ptv_collect_meta, if_neg hne]
    simp only [List.mapM, List.mapM.loop]
    rw [hsort]
    rfl

/-- C8 witness: two concrete act records produce the single empty-keyed
group and the `TypeError` abort. -/
theorem C8_temporal_abort_witness :
    processTemporalVersioning (metaOf c8TwoActs) = .error "TypeError" ∧
    ((([] : List Char),
        [(⟨"banks", none, "unknown", none⟩ : VersionEntry),
         ⟨"companies", none, "unknown", none⟩]) :
      List Char × List VersionEntry).1 = [] := by
  constructor
  · exact (C8_temporal_abort c8TwoActs).2 (by decide)
  · exact ((C8_temporal_abort c8TwoActs).1 _ (by decide)).1

/-! ### Stable-sort lemmas (for claim C3) -/

theorem lexLt_asymm : ∀ a b : List Char, lexLt a b = true → lexLt b a = false := by
  intro a
  induction a with
  | nil =>
    intro b h
    cases b with
    | nil => exact absurd h (by simp [lexLt])
    | cons c t => rfl
  | cons x xs ih =>
    intro b h
    cases b with
    | nil => exact absurd h (by simp [lexLt])
    | cons y ys =>
      unfold lexLt at h ⊢
      by_cases h1 : x.toNat < y.toNat
      · rw [if_neg (by omega : ¬y.toNat < x.toNat), if_pos h1]
      · rw [if_neg h1] at h
        by_cases h2 : y.toNat < x.toNat
        · rw [if_pos h2] at h
          exact absurd h (by simp)
        · rw [if_neg h2] at h
          rw [if_neg h2, if_neg h1]
          exact ih ys h

theorem insertAsc_head (e : VersionEntry) :
    ∀ l : List VersionEntry,
      (insertAsc e l).head? = some e ∨ (insertAsc e l).head? = l.head? := by
  intro l
  cases l with
  | nil => exact Or.inl rfl
  | cons x xs =>
    unfold insertAsc
    by_cases hlt : lexLt (entryKey e) (entryKey x) = true
    · rw [if_pos hlt]; exact Or.inl rfl
    · rw [if_neg hlt]; exact Or.inr rfl

theorem chain'_insertAsc (e : VersionEntry) :
    ∀ l : List VersionEntry,
      List.Chain' dateLeE l → List.Chain' dateLeE (insertAsc e l) := by
  intro l
  induction l with
  | nil => intro _; simp [insertAsc]
  | cons x xs ih =>
    intro h
    unfold insertAsc
    by_cases hlt : lexLt (entryKey e) (entryKey x) = true
    · rw [if_pos hlt]
      exact List.chain'_cons.mpr ⟨lexLt_asymm _ _ hlt, h⟩
    · rw [if_neg hlt]
      apply List.chain'_cons'.mpr
      refine ⟨?_, ih h.tail⟩
      intro h2 hh2
      rcases insertAsc_head e xs with h3 | h3
      · rw [h3] at hh2
        have he2 : e = h2 := by simpa using hh2
        rw [← he2]
        unfold dateLeE
        cases hb : lexLt (entryKey e) (entryKey x) with
        | true => exact absurd hb hlt
        | false => rfl
      · rw [h3] at hh2
        exact (List.chain'_cons'.mp h).1 h2 hh2

theorem sortEntries_sorted (l : List VersionEntry) :
    List.Chain' dateLeE (sortEntries l) := by
  unfold sortEntries
  exact foldl_inv (List.Chain' dateLeE) (fun acc e => insertAsc e acc)
    (fun acc e h => chain'_insertAsc e acc h) l [] (by simp)

theorem insertAsc_mem (e : VersionEntry) :
    ∀ (l : List VersionEntry) (x : VersionEntry),
      x ∈ insertAsc e l → x = e ∨ x ∈ l := by
  intro l
  induction l with
  | nil =>
    intro x hx
    simp only [insertAsc] at hx
    exact Or.inl (by simpa using hx)
  | cons y ys ih =>
    intro x hx
    unfold insertAsc at hx
    by_cases hlt : lexLt (entryKey e) (entryKey y) = true
    · rw [if_pos hlt] at hx
      rcases List.mem_cons.mp hx with h1 | h1
      · exact Or.inl h1
      · exact Or.inr h1
    · rw [if_neg hlt] at hx
      rcases List.mem_cons.mp hx with h1 | h1
      · exact Or.inr (by simp [h1])
      · rcases ih x h1 with h2 | h2
        · exact Or.inl h2
        · exact Or.inr (by simp [h2])

theorem sortEntries_mem (l : List VersionEntry) :
    ∀ x ∈ sortEntries l, x ∈ l := by
  have haux : ∀ (t : List VersionEntry) (acc : List VersionEntry) (x : VersionEntry),
      x ∈ t.foldl (fun acc e => insertAsc e acc) acc → x ∈ acc ∨ x ∈ t := by
    intro t
    induction t with
    | nil => intro acc x hx; exact Or.inl hx
    | cons e es ih =>
      intro acc x hx
      simp only [List.foldl_cons] at hx
      rcases ih (insertAsc e acc) x hx with h1 | h1
      · rcases insertAsc_mem e acc x h1 with h2 | h2
        · exact Or.inr (by simp [h2])
        · exact Or.inl h2
      · exact Or.inr (by simp [h1])
  intro x hx
  rcases haux l [] x hx with h1 | h1
  · exact absurd h1 (List.not_mem_nil x)
  · exact h1

theorem pySortEntries_ok (l : List VersionEntry)
    (h : ∀ e ∈ l, e.date.isSome = true) :
    pySortEntries l = .ok (sortEntries l) := by
  unfold pySortEntries
  rw [if_neg]
  intro hcontra
  have hany : l.any (fun e => e.date.isNone) = true := by
    have h2 := hcontra
    simp only [Bool.and_eq_true] at h2
    exact h2.2
  rcases List.any_eq_true.mp hany with ⟨e, hmem, hnone⟩
  have hs := h e hmem
  cases he : e.date with
  | none => rw [he] at hs; exact absurd hs (by simp)
  | some d =>
    rw [he] at hnone
    exact absurd hnone (by simp)

theorem addToGroups_inv (P : VersionEntry → List Char → Prop)
    (gs : List (List Char × List VersionEntry)) (key : List Char) (e : VersionEntry)
    (he : P e key)
    (h1 : (gs.map Prod.fst).Nodup)
    (h2 : ∀ g ∈ gs, ∀ x ∈ g.2, P x g.1) :
    ((addToGroups gs key e).map Prod.fst).Nodup ∧
    ∀ g ∈ addToGroups gs key e, ∀ x ∈ g.2, P x g.1 := by
  unfold addToGroups
  cases hp : gs.any (fun g => g.1 = key) with
  | true =>
    simp only [hp, if_true]
    constructor
    · have hmm : (gs.map (fun g => if g.1 = key then (g.1, g.2 ++ [e]) else g)).map Prod.fst =
          gs.map Prod.fst := by
        rw [List.map_map]
        apply List.map_congr_left
        intro g _
        by_cases hc : g.1 = key
        · simp [hc]
        · simp [hc]
      rw [hmm]
      exact h1
    · intro g hg x hx
      rcases List.mem_map.mp hg with ⟨g0, hg0, he0⟩
      by_cases hc : g0.1 = key
      · rw [if_pos hc] at he0
        rw [← he0] at hx ⊢
        simp only at hx ⊢
        rcases List.mem_append.mp hx with hx1 | hx1
        · exact h2 g0 hg0 x hx1
        · have hxe : x = e := by simpa using hx1
          rw [hxe, hc]
          exact he
      · rw [if_neg hc] at he0
        rw [← he0] at hx ⊢
        exact h2 g0 hg0 x hx
  | false =>
    simp only [hp, Bool.false_eq_true, if_false]
    constructor
    · rw [List.map_append]
      apply List.Nodup.append h1 (by simp)
      intro a ha hb
      have hk : a = key := by simpa using hb
      rcases List.mem_map.mp ha with ⟨g, hg, hgf⟩
      have hne := List.any_eq_false.mp hp g hg
      simp only [decide_eq_true_eq] at hne
      rw [← hgf] at hk
      exact hne hk
    · intro g hg x hx
      rcases List.mem_append.mp hg with hg1 | hg1
      · exact h2 g hg1 x hx
      · have hge : g = (key, [e]) := by simpa using hg1
        rw [hge] at hx ⊢
        have hxe : x = e := by simpa using hx
        rw [hxe]
        exact he

theorem ptv_mapM_ok (gs : List (List Char × List VersionEntry))
    (hall : ∀ g ∈ gs, pySortEntries g.2 = .ok (sortEntries g.2)) :
    gs.mapM (fun g => (pySortEntries g.2).map (fun l2 => (g.1, l2))) =
      .ok (gs.map (fun g => (g.1, sortEntries g.2))) := by
  induction gs with
  | nil => rfl
  | cons g t ih =>
    have hg := hall g (by simp)
    have ht := ih (fun g2 h2 => hall g2 (by simp [h2]))
    simp only [List.mapM_cons, hg, ht]
    rfl

/-! ### Claim C3: temporal version grouping

The general contract claims missing dates sort first; in the source a
missing date produces the sort key `None` (the `"date"` key is present with
value `None`, so the `.get` default `""` never applies) and any comparison
against `None` raises `TypeError`.  The claim is corrected to require
dates; its concrete Banks Act example holds as stated. -/

/-- C3 counterexample: two act records with the same title, one without a
date.  The claimed behaviour is one group with the dateless record first;
the code instead raises `TypeError` from the sort. -/
theorem C3_temporal_grouping_counterexample :
    processTemporalVersioning c3BadRecs = .error "TypeError" := by decide

/-- C3 (amended): when every act record carries a date,
`process_temporal_versioning` succeeds; group keys are the titles with a
trailing ` Amendment` stripped (via the lazy base-title regex) and are
pairwise distinct, each group is sorted ascending by date string under the
stable insertion order, and every entry's stripped title equals its group
key.  (Records with a missing date do not sort first: they raise, see the
counterexample.)  The Banks Act example behaves exactly as the claim
states. -/
theorem C3_temporal_grouping_amended :
    (∀ docs : List (String × DocMeta),
      (∀ r ∈ docs, r.2.type = some "act" → r.2.date.isSome = true) →
      ∃ gs, processTemporalVersioning docs = .ok gs ∧
        (gs.map Prod.fst).Nodup ∧
        ∀ g ∈ gs, SortedEntries g.2 ∧
          ∀ e ∈ g.2, ∃ b, matchBase ((e.title.getD "").data) = some b ∧
            pyStrip b = g.1) ∧
    processTemporalVersioning banksRecs =
      .ok [("Banks Act".data,
        [⟨"d3", some "1990", "unknown", some "Banks Act"⟩,
         ⟨"d1", some "2015", "unknown", some "Banks Act"⟩,
         ⟨"d2", some "2017", "unknown", some "Banks Act Amendment"⟩])] := by
  constructor
  · intro docs hdocs
    have hinv : ((ptvCollect docs).map Prod.fst).Nodup ∧
        ∀ g ∈ ptvCollect docs, ∀ e ∈ g.2,
          ((∃ b, matchBase ((e.title.getD "").data) = some b ∧ pyStrip b = g.1) ∧
            e.date.isSome = true) := by
      unfold ptvCollect
      refine foldl_inv_mem
        (fun gs => ((gs.map Prod.fst).Nodup ∧
          ∀ g ∈ gs, ∀ e ∈ g.2,
            ((∃ b, matchBase ((e.title.getD "").data) = some b ∧ pyStrip b = g.1) ∧
              e.date.isSome = true)))
        ptvStep docs ?_ [] (by simp)
      intro gs doc hdoc hgs
      unfold ptvStep
      by_cases ht : doc.2.type = some "act"
      · rw [if_pos ht]
        cases hmb : matchBase ((doc.2.title.getD "").data) with
        | none => exact hgs
        | some b =>
          exact addToGroups_inv
            (fun x k => (∃ b2, matchBase ((x.title.getD "").data) = some b2 ∧
              pyStrip b2 = k) ∧ x.date.isSome = true)
            gs (pyStrip b) _
            ⟨⟨b, hmb, rfl⟩, hdocs doc hdoc ht⟩ hgs.1 hgs.2
      · rw [if_neg ht]
        exact hgs
    have hall : ∀ g ∈ ptvCollect docs, pySortEntries g.2 = .ok (sortEntries g.2) := by
      intro g hg
      exact pySortEntries_ok g.2 (fun e he => ((hinv.2 g hg) e he).2)
    refine ⟨(ptvCollect docs).map (fun g => (g.1, sortEntries g.2)),
      by unfold processTemporalVersioning; exact ptv_mapM_ok _ hall, ?_, ?_⟩
    · rw [List.map_map]
      exact hinv.1
    · intro g2 hg2
      rcases List.mem_map.mp hg2 with ⟨g0, hg0, he0⟩
      rw [← he0]
      constructor
      · exact sortEntries_sorted g0.2
      · intro e he
        have he2 : e ∈ g0.2 := sortEntries_mem g0.2 e he
        exact ((hinv.2 g0 hg0) e he2).1
  · decide

/-- C3 witness: the amended contract applied to the Banks Act records (all
dated) yields a successful, non-raising run. -/
theorem C3_temporal_grouping_witness :
    processTemporalVersioning banksRecs ≠ Except.error "TypeError" := by
  obtain ⟨gs, hok, _, _⟩ := C3_temporal_grouping_amended.1 banksRecs (by decide)
  rw [hok]
  simp

/-! ### Claim C1: per-file failure isolation

`process_file` does catch every per-file error and returns no record, and
the map stage then yields exactly one record per succeeding file.  But the
claim's conclusion — that a run over N valid files plus one corrupted file
always *completes without raising* — fails: with two or more successfully
processed act-typed files the reduce stage raises `TypeError` in
`process_temporal_versioning` (claim C8), aborting the whole run.  The
claim is corrected accordingly. -/

theorem ptv_meta_ok_of_le_one (l : List (String × DocInfo)) (hc : countActs l ≤ 1) :
    ∃ r, processTemporalVersioning (metaOf l) = .ok r := by
  unfold processTemporalVersioning
  rw [ptv_collect_meta]
  by_cases he : actEntriesOf l = []
  · rw [if_pos he]
    exact ⟨[], rfl⟩
  · rw [if_neg he]
    have hlen := actEntriesOf_length l
    cases hae : actEntriesOf l with
    | nil => exact absurd hae he
    | cons e es =>
      have hes : es = [] := by
        rw [hae] at hlen
        simp only [List.length_cons] at hlen
        have : es.length = 0 := by omega
        exact List.length_eq_zero.mp this
      subst hes
      have hsort : pySortEntries [e] = .ok (sortEntries [e]) := by
        unfold pySortEntries
        rw [if_neg]
        intro hcon
        simp at hcon
      exact ⟨_, by simp only [List.mapM_cons, List.mapM_nil, hsort]; rfl⟩

theorem dictInsert_keys_mem (docs : List (String × DocInfo)) (k v) (k2 : String) :
    k2 ∈ (dictInsert docs k v).map Prod.fst ↔ k2 ∈ docs.map Prod.fst ∨ k2 = k := by
  unfold dictInsert
  by_cases hany : docs.any (fun p => p.1 = k) = true
  · rw [if_pos hany]
    have hkeys : (docs.map (fun p => if p.1 = k then (k, v) else p)).map Prod.fst =
        docs.map Prod.fst := by
      rw [List.map_map]
      apply List.map_congr_left
      intro p _
      by_cases hp : p.1 = k
      · simp only [Function.comp_apply, if_pos hp]
        exact hp.symm
      · simp only [Function.comp_apply, if_neg hp]
    rw [hkeys]
    constructor
    · exact Or.inl
    · rintro (h | rfl)
      · exact h
      · obtain ⟨p, hp, hpk⟩ := List.any_eq_true.mp hany
        exact List.mem_map.mpr ⟨p, hp, of_decide_eq_true hpk⟩
  · rw [if_neg hany, List.map_append]
    simp

theorem dictInsert_keys_nodup (docs : List (String × DocInfo)) (k v)
    (h : (docs.map Prod.fst).Nodup) : ((dictInsert docs k v).map Prod.fst).Nodup := by
  unfold dictInsert
  by_cases hany : docs.any (fun p => p.1 = k) = true
  · rw [if_pos hany]
    have hkeys : (docs.map (fun p => if p.1 = k then (k, v) else p)).map Prod.fst =
        docs.map Prod.fst := by
      rw [List.map_map]
      apply List.map_congr_left
      intro p _
      by_cases hp : p.1 = k
      · simp only [Function.comp_apply, if_pos hp]
        exact hp.symm
      · simp only [Function.comp_apply, if_neg hp]
    rw [hkeys]
    exact h
  · rw [if_neg hany, List.map_append]
    have hk : k ∉ docs.map Prod.fst := by
      intro hm
      obtain ⟨p, hp, hpk⟩ := List.mem_map.mp hm
      exact hany (List.any_eq_true.mpr ⟨p, hp, decide_eq_true hpk⟩)
    simp [List.nodup_append, h, hk]

theorem dictInsert_mem (docs : List (String × DocInfo)) (k v) (p : String × DocInfo)
    (hp : p ∈ dictInsert docs k v) : p ∈ docs ∨ p = (k, v) := by
  unfold dictInsert at hp
  by_cases hany : docs.any (fun q => q.1 = k) = true
  · rw [if_pos hany] at hp
    obtain ⟨q, hq, hqe⟩ := List.mem_map.mp hp
    by_cases hqk : q.1 = k
    · rw [if_pos hqk] at hqe
      right
      exact hqe.symm
    · rw [if_neg hqk] at hqe
      left
      exact hqe ▸ hq
  · rw [if_neg hany] at hp
    rcases List.mem_append.mp hp with h | h
    · exact Or.inl h
    · right
      simpa using h

theorem mapStage_aux : ∀ (files : List InputFile) (docs : List (String × DocInfo)),
    (docs.map Prod.fst).Nodup →
    ((files.foldl mapStep docs).map Prod.fst).Nodup ∧
    (∀ k, k ∈ (files.foldl mapStep docs).map Prod.fst ↔
      k ∈ docs.map Prod.fst ∨ ∃ d, (k, d) ∈ files.filterMap processFile) ∧
    (∀ p ∈ files.foldl mapStep docs, p ∈ docs ∨ ∃ f ∈ files, processFile f = some p) := by
  intro files
  induction files with
  | nil =>
    intro docs h
    refine ⟨h, ?_, ?_⟩
    · intro k
      simp
    · intro p hp
      exact Or.inl hp
  | cons f t ih =>
    intro docs h
    cases hf : processFile f with
    | none =>
      simp only [List.foldl_cons, List.filterMap_cons, mapStep, hf]
      obtain ⟨h1, h2, h3⟩ := ih docs h
      refine ⟨h1, ?_, ?_⟩
      · intro k
        rw [h2 k]
      · intro p hp
        rcases h3 p hp with hin | ⟨f2, hf2, hpf⟩
        · exact Or.inl hin
        · exact Or.inr ⟨f2, List.mem_cons_of_mem f hf2, hpf⟩
    | some q =>
      obtain ⟨k0, d0⟩ := q
      simp only [List.foldl_cons, List.filterMap_cons, mapStep, hf]
      obtain ⟨h1, h2, h3⟩ := ih (dictInsert docs k0 d0) (dictInsert_keys_nodup docs k0 d0 h)
      refine ⟨h1, ?_, ?_⟩
      · intro k
        rw [h2 k, dictInsert_keys_mem]
        constructor
        · rintro ((hk | rfl) | ⟨d, hd⟩)
          · exact Or.inl hk
          · exact Or.inr ⟨d0, List.mem_cons_self _ _⟩
          · exact Or.inr ⟨d, List.mem_cons_of_mem _ hd⟩
        · rintro (hk | ⟨d, hd⟩)
          · exact Or.inl (Or.inl hk)
          · rcases List.mem_cons.mp hd with he | he
            · exact Or.inl (Or.inr (congrArg Prod.fst he))
            · exact Or.inr ⟨d, he⟩
      · intro p hp
        rcases h3 p hp with hin | ⟨f2, hf2, hpf⟩
        · rcases dictInsert_mem docs k0 d0 p hin with hd | hpe
          · exact Or.inl hd
          · refine Or.inr ⟨f, List.mem_cons_self f t, ?_⟩
            rw [hpe]
            exact hf
        · exact Or.inr ⟨f2, List.mem_cons_of_mem f hf2, hpf⟩

theorem mapStage_nodup_eq_aux : ∀ (files : List InputFile) (docs : List (String × DocInfo)),
    (docs.map Prod.fst ++ (files.filterMap processFile).map Prod.fst).Nodup →
    files.foldl mapStep docs = docs ++ files.filterMap processFile := by
  intro files
  induction files with
  | nil =>
    intro docs _
    simp
  | cons f t ih =>
    intro docs h
    cases hf : processFile f with
    | none =>
      simp only [List.filterMap_cons, hf] at h ⊢
      simp only [List.foldl_cons, mapStep, hf]
      exact ih docs h
    | some q =>
      obtain ⟨k0, d0⟩ := q
      simp only [List.filterMap_cons, hf, List.map_cons] at h ⊢
      simp only [List.foldl_cons, mapStep, hf]
      have hk0 : k0 ∉ docs.map Prod.fst := by
        intro hm
        exact (List.disjoint_of_nodup_append h) hm (by simp)
      have hins : dictInsert docs k0 d0 = docs ++ [(k0, d0)] := by
        unfold dictInsert
        rw [if_neg]
        intro hany
        obtain ⟨p, hp, hpk⟩ := List.any_eq_true.mp hany
        exact hk0 (List.mem_map.mpr ⟨p, hp, of_decide_eq_true hpk⟩)
      rw [hins]
      have h2 : ((docs ++ [(k0, d0)]).map Prod.fst ++
          (t.filterMap processFile).map Prod.fst).Nodup := by
        rw [List.map_append]
        simpa [List.append_assoc] using h
      rw [ih (docs ++ [(k0, d0)]) h2]
      simp

/-- C1 counterexample: two valid act files plus one corrupted file.  The
map stage yields exactly the two records, but the run raises `TypeError`
in the reduce stage instead of completing. -/
theorem C1_failure_isolation_counterexample :
    (mapStage c1BadFiles).length = 2 ∧
    processDirectory c1BadFiles = .error "TypeError" := by
  constructor <;> decide

/-- C1 (amended): any error raised during per-document processing is
caught and yields no record; the map stage collects the succeeding files'
records into the `documents` dict keyed by basename stem — its keys are
distinct, a key is present exactly when some succeeding file has that
stem, every stored record comes from a succeeding file, and a later
same-stem file overwrites the earlier record (concretely, two same-stem
files leave one record carrying the later path) — so when the succeeding
files' stems are pairwise distinct the stage holds exactly one record per
succeeding file; and the run completes without raising provided at most
one act-typed record is produced (with two or more, the reduce stage
raises `TypeError`, see the counterexample). -/
theorem C1_failure_isolation_amended :
    (∀ (f : InputFile) (e : String),
      processFileBody f = .error e → processFile f = none) ∧
    (∀ files : List InputFile,
      ((mapStage files).map Prod.fst).Nodup ∧
      (∀ k, k ∈ (mapStage files).map Prod.fst ↔
        ∃ d, (k, d) ∈ files.filterMap processFile) ∧
      (∀ p ∈ mapStage files, ∃ f ∈ files, processFile f = some p)) ∧
    (∀ files : List InputFile,
      ((files.filterMap processFile).map Prod.fst).Nodup →
      mapStage files = files.filterMap processFile) ∧
    ((mapStage c1DupFiles).map (fun p => p.2.path) = ["case_law/sub/x.txt"] ∧
      (c1DupFiles.filterMap processFile).length = 2) ∧
    (∀ files : List InputFile,
      countActs (mapStage files) ≤ 1 →
      processDirectory files = .ok (mapStage files)) := by
  refine ⟨?_, ?_, ?_, ⟨by decide, by decide⟩, ?_⟩
  · intro f e h
    unfold processFile
    rw [h]
  · intro files
    obtain ⟨h1, h2, h3⟩ := mapStage_aux files [] (by simp)
    refine ⟨h1, ?_, ?_⟩
    · intro k
      have hk := h2 k
      simpa using hk
    · intro p hp
      rcases h3 p hp with hin | hsrc
      · exact absurd hin (List.not_mem_nil p)
      · exact hsrc
  · intro files hnd
    have he := mapStage_nodup_eq_aux files [] (by simpa using hnd)
    simpa using he
  · intro files hc
    obtain ⟨r, hr⟩ := ptv_meta_ok_of_le_one (mapStage files) hc
    unfold processDirectory
    cases hemp : (mapStage files).isEmpty with
    | true =>
      simp only [hemp, if_true]
      rw [List.isEmpty_iff.mp hemp]
    | false =>
      simp only [hemp, Bool.false_eq_true, if_false, hr]

/-- C1 witness: nine valid case-law files with distinct stems plus one
corrupted file produce exactly nine records (the dict collapses to the
per-file list) and the run completes without raising. -/
theorem C1_failure_isolation_witness :
    processDirectory c1GoodFiles = .ok (mapStage c1GoodFiles) ∧
    mapStage c1GoodFiles = c1GoodFiles.filterMap processFile ∧
    (mapStage c1GoodFiles).length = 9 := by
  refine ⟨?_, ?_, by decide⟩
  · exact C1_failure_isolation_amended.2.2.2.2 c1GoodFiles (by decide)
  · exact C1_failure_isolation_amended.2.2.1 c1GoodFiles (by decide)

/-! ### First-maximum lemma (for claim C4) -/

theorem pyMaxSnd_split :
    ∀ (xs : List (String × Nat)) (x : String × Nat),
      ∃ pre post, x :: xs = pre ++ (pyMaxSnd x xs) :: post ∧
        (∀ p ∈ pre, p.2 < (pyMaxSnd x xs).2) ∧
        (∀ p ∈ post, p.2 ≤ (pyMaxSnd x xs).2) := by
  intro xs
  induction xs with
  | nil =>
    intro x
    exact ⟨[], [], rfl, by simp, by simp⟩
  | cons y ys ih =>
    intro x
    have hstep : pyMaxSnd x (y :: ys) = pyMaxSnd (if x.2 < y.2 then y else x) ys := by
      unfold pyMaxSnd
      rw [List.foldl_cons]
    by_cases hgt : x.2 < y.2
    · rw [if_pos hgt] at hstep
      obtain ⟨pre, post, heq, hpre, hpost⟩ := ih y
      have hym : y.2 ≤ (pyMaxSnd y ys).2 := by
        cases pre with
        | nil =>
          simp only [List.nil_append, List.cons.injEq] at heq
          exact le_of_eq (congrArg Prod.snd heq.1)
        | cons a as =>
          simp only [List.cons_append, List.cons.injEq] at heq
          have := hpre a (by simp)
          rw [← heq.1] at this
          omega
      refine ⟨x :: pre, post, ?_, ?_, ?_⟩
      · rw [hstep, List.cons_append, ← heq]
      · intro p hp
        rcases List.mem_cons.mp hp with he | he
        · rw [he, hstep]
          omega
        · rw [hstep]
          exact hpre p he
      · intro p hp
        rw [hstep]
        exact hpost p hp
    · rw [if_neg hgt] at hstep
      obtain ⟨pre, post, heq, hpre, hpost⟩ := ih x
      cases pre with
      | nil =>
        simp only [List.nil_append, List.cons.injEq] at heq
        refine ⟨[], y :: post, ?_, by simp, ?_⟩
        · rw [hstep, List.nil_append, ← heq.1, heq.2]
        · intro p hp
          rcases List.mem_cons.mp hp with he | he
          · rw [he, hstep, ← heq.1]
            omega
          · rw [hstep]
            exact hpost p he
      | cons a as =>
        simp only [List.cons_append, List.cons.injEq] at heq
        refine ⟨x :: y :: as, post, ?_, ?_, ?_⟩
        · rw [hstep, List.cons_append, List.cons_append, ← heq.2]
        · intro p hp
          rcases List.mem_cons.mp hp with he | he
          · rw [he, hstep]
            have := hpre a (by simp)
            rw [← heq.1] at this
            exact this
          · rcases List.mem_cons.mp he with he2 | he2
            · rw [he2, hstep]
              have := hpre a (by simp)
              rw [← heq.1] at this
              omega
            · rw [hstep]
              exact hpre p (by simp [he2])
        · intro p hp
          rw [hstep]
          exact hpost p hp

/-! ### Claim C4: language detection ties

The claim says any tie for the highest sum returns `"en"`.  Python's `max`
returns the *first* maximal item in dict insertion order, so a tie among
non-English languages returns the earliest of them, not `"en"`.  Corrected;
the all-zero default and the Afrikaans example hold. -/

/-- C4 counterexample: on `futhi kunye` the Zulu and Xhosa scores tie for
the maximum (1, all others at most 1 with English at 0), yet the result is
`"zu"`, not the claimed `"en"`. -/
theorem C4_language_detection_counterexample :
    detectLanguage "futhi kunye" = "zu" ∧
    langScoreOf "futhi kunye" "zu" = 1 ∧
    langScoreOf "futhi kunye" "xh" = 1 ∧
    langScoreOf "futhi kunye" "en" = 0 ∧
    (∀ p ∈ langScores "futhi kunye".data, p.2 ≤ 1) := by
  refine ⟨by decide, by decide, by decide, by decide, by decide⟩

/-- C4 (amended): scoring is as claimed (whole-word marker counts over the
lowercased 1000-character prefix); an all-zero score set returns `"en"`;
otherwise the result is the *first* language in the source's fixed
iteration order (en, af, zu, xh, st, tn, nso, ts, ss, ve, nr) attaining
the maximal sum — so a tie returns `"en"` exactly when English attains
the maximum, as on `in is` (en = 2, af = 2), and returns the earlier
non-English language otherwise.  Text `die en van` yields `"af"`, and
text with no marker words yields `"en"`. -/
theorem C4_language_detection_amended :
    (∀ text : List Char,
      (∀ p ∈ langScores text, p.2 = 0) → detectLanguageL text = "en") ∧
    (∀ text : List Char,
      (¬ ∀ p ∈ langScores text, p.2 = 0) →
      ∃ pre post s, langScores text = pre ++ (detectLanguageL text, s) :: post ∧
        0 < s ∧ (∀ p ∈ pre, p.2 < s) ∧ (∀ p ∈ post, p.2 ≤ s)) ∧
    (languageWords.map Prod.fst =
      ["en", "af", "zu", "xh", "st", "tn", "nso", "ts", "ss", "ve", "nr"]) ∧
    detectLanguage "die en van" = "af" ∧
    detectLanguage "qqq zzz" = "en" ∧
    (detectLanguage "in is" = "en" ∧
      langScoreOf "in is" "en" = 2 ∧ langScoreOf "in is" "af" = 2) := by
  refine ⟨?_, ?_, by decide, by decide, by decide, by decide, by decide, by decide⟩
  · intro text hz
    unfold detectLanguageL
    cases hs : langScores text with
    | nil => rfl
    | cons x xs =>
      obtain ⟨pre, post, heq, _, _⟩ := pyMaxSnd_split xs x
      have hm : pyMaxSnd x xs ∈ x :: xs := by
        rw [heq]
        exact List.mem_append_right _ (by simp)
      have hz2 : (pyMaxSnd x xs).2 = 0 := hz _ (hs ▸ hm)
      simp [hz2]
  · intro text hnz
    cases hs : langScores text with
    | nil =>
      exfalso
      apply hnz
      intro p hp
      rw [hs] at hp
      exact absurd hp (List.not_mem_nil p)
    | cons x xs =>
      obtain ⟨pre, post, heq, hpre, hpost⟩ := pyMaxSnd_split xs x
      have hm2 : (pyMaxSnd x xs).2 ≠ 0 := by
        intro h0
        apply hnz
        intro p hp
        rw [hs, heq] at hp
        rcases List.mem_append.mp hp with h1 | h1
        · have := hpre p h1
          omega
        · rcases List.mem_cons.mp h1 with h1 | h1
          · rw [h1, h0]
          · have := hpost p h1
            omega
      have hdet : detectLanguageL text = (pyMaxSnd x xs).1 := by
        unfold detectLanguageL
        rw [hs]
        simp [hm2]
      refine ⟨pre, post, (pyMaxSnd x xs).2, ?_, by omega, hpre, hpost⟩
      rw [hdet]
      simpa using heq

/-- C4 witness: both amended branches at concrete texts. -/
theorem C4_language_detection_witness :
    detectLanguageL "qqq zzz".data = "en" ∧
    ∃ pre post s, langScores "die en van".data =
        pre ++ (detectLanguageL "die en van".data, s) :: post ∧
      0 < s ∧ (∀ p ∈ pre, p.2 < s) ∧ (∀ p ∈ post, p.2 ≤ s) := by
  constructor
  · exact C4_language_detection_amended.1 "qqq zzz".data (by decide)
  · exact C4_language_detection_amended.2.1 "die en van".data (by decide)

/-! ### Claim C10: the `subsection` and `footnote` roles are unreachable

A stripped line matching `^\([a-z]\)` also matches the `\([a-z]\)`
alternative of the earlier `section` pattern, and a stripped line matching
`^\s*\d+\.\s+` starts (having no leading whitespace) with `\d+\.` and so
matches the first `section` alternative; first-match-wins classification
therefore never assigns either role. -/

theorem pyStrip_head_not_ws (s : List Char) :
    ∀ c t, pyStrip s = c :: t → isWs c = false := by
  intro c t h
  have ha : pyStrip s ++ ((s.dropWhile isWs).reverse.takeWhile isWs).reverse =
      s.dropWhile isWs := by
    unfold pyStrip
    rw [← List.reverse_append, takeWhile_append_dropWhile', List.reverse_reverse]
  have hh := headNot_dropWhile isWs s
  rw [← ha, h] at hh
  simpa [headNot, List.cons_append] using hh

theorem matchSubsection_imp_section (l : List Char) :
    matchSubsection l = true → matchSection l = true := by
  intro h
  unfold matchSubsection at h
  unfold matchSection
  simp [h]

theorem matchFootnote_imp_section (l : List Char)
    (hh : headNot isWs l = true) :
    matchFootnote l = true → matchSection l = true := by
  intro h
  unfold matchFootnote at h
  rw [dropWhile_headNot hh] at h
  simp only [Bool.and_eq_true] at h
  obtain ⟨h1, h2⟩ := h
  have hsec : startsDigitsDot l = true := by
    unfold startsDigitsDot
    rw [Bool.and_eq_true]
    refine ⟨h1, ?_⟩
    cases hd : l.dropWhile isDigitCh with
    | nil => rw [hd] at h2; exact absurd h2 (by simp)
    | cons c rest =>
      rw [hd] at h2
      simp only [Bool.and_eq_true] at h2
      exact h2.1
  unfold matchSection
  simp [hsec]

theorem classifyLine_not_sub_foot (l : List Char) (hh : headNot isWs l = true) :
    classifyLine l ≠ "subsection" ∧ classifyLine l ≠ "footnote" := by
  unfold classifyLine
  by_cases h1 : matchHeading l = true
  · rw [if_pos h1]; exact ⟨by decide, by decide⟩
  · rw [if_neg h1]
    by_cases h2 : matchSection l = true
    · rw [if_pos h2]; exact ⟨by decide, by decide⟩
    · rw [if_neg h2]
      have h3 : ¬matchSubsection l = true :=
        fun hc => h2 (matchSubsection_imp_section l hc)
      rw [if_neg h3]
      by_cases h4 : matchParagraph l = true
      · rw [if_pos h4]; exact ⟨by decide, by decide⟩
      · rw [if_neg h4]
        by_cases h5 : matchSubparagraph l = true
        · rw [if_pos h5]; exact ⟨by decide, by decide⟩
        · rw [if_neg h5]
          by_cases h6 : matchDefinition l = true
          · rw [if_pos h6]; exact ⟨by decide, by decide⟩
          · rw [if_neg h6]
            by_cases h7 : matchTableHeader l = true
            · rw [if_pos h7]; exact ⟨by decide, by decide⟩
            · rw [if_neg h7]
              by_cases h8 : matchListItem l = true
              · rw [if_pos h8]; exact ⟨by decide, by decide⟩
              · rw [if_neg h8]
                have h9 : ¬matchFootnote l = true :=
                  fun hc => h2 (matchFootnote_imp_section l hh hc)
                rw [if_neg h9]
                by_cases h10 : matchPreamble l = true
                · rw [if_pos h10]; exact ⟨by decide, by decide⟩
                · rw [if_neg h10]
                  by_cases h11 : matchEndnote l = true
                  · rw [if_pos h11]; exact ⟨by decide, by decide⟩
                  · rw [if_neg h11]; exact ⟨by decide, by decide⟩

/-- C10: no structure element ever receives the role `subsection` or
`footnote`; a subsection-shaped line matches the `section` pattern, and a
footnote-shaped stripped line matches the `section` pattern. -/
theorem C10_unreachable_roles :
    (∀ (text : List Char), ∀ e ∈ analyzeDocumentStructure text,
      e.type ≠ "subsection" ∧ e.type ≠ "footnote") ∧
    (∀ l : List Char, matchSubsection l = true → matchSection l = true) ∧
    (∀ l : List Char, headNot isWs l = true → matchFootnote l = true →
      matchSection l = true) := by
  refine ⟨?_, matchSubsection_imp_section, matchFootnote_imp_section⟩
  intro text e he
  unfold analyzeDocumentStructure at he
  rcases List.mem_filterMap.mp he with ⟨p, _, hpe⟩
  dsimp only at hpe
  by_cases hemp : (pyStrip p.2).isEmpty
  · rw [if_pos hemp] at hpe
    exact absurd hpe (by simp)
  · rw [if_neg hemp] at hpe
    have he2 : e.type = classifyLine (pyStrip p.2) := by
      rw [← Option.some.inj hpe]
    rw [he2]
    have hh : headNot isWs (pyStrip p.2) = true := by
      cases hps : pyStrip p.2 with
      | nil => rfl
      | cons c t =>
        simp [headNot, pyStrip_head_not_ws p.2 c t hps]
    exact classifyLine_not_sub_foot _ hh

/-- C10 witness: the roles of concrete classified lines. -/
theorem C10_unreachable_roles_witness :
    ((⟨1, "1. Section one", "section"⟩ : StructElem).type ≠ "subsection" ∧
      (⟨1, "1. Section one", "section"⟩ : StructElem).type ≠ "footnote") ∧
    matchSection "(a) sub".data = true ∧
    matchSection "1. x".data = true := by
  refine ⟨?_, ?_, ?_⟩
  · exact C10_unreachable_roles.1 "PREAMBLE\n1. Section one\n(a) sub".data _ (by decide)
  · exact C10_unreachable_roles.2.1 "(a) sub".data (by decide)
  · exact C10_unreachable_roles.2.2 "1. x".data (by decide) (by decide)

/-! ### `finditer` counting lemmas (for claim C5) -/

theorem finditerAux_start_ge (r : RE) (s : List Char) :
    ∀ (fuel pos : Nat), ∀ ab ∈ finditerAux r s fuel pos, pos ≤ ab.1 := by
  intro fuel
  induction fuel with
  | zero =>
    intro pos ab hab
    exact absurd hab (List.not_mem_nil ab)
  | succ fuel ih =>
    intro pos ab hab
    unfold finditerAux at hab
    by_cases hgt : pos > s.length
    · rw [if_pos hgt] at hab
      exact absurd hab (List.not_mem_nil ab)
    · rw [if_neg hgt] at hab
      cases hm : reMatchLen r (s.drop pos) with
      | some len =>
        rw [hm] at hab
        rcases List.mem_cons.mp hab with he | he
        · rw [he]
        · have := ih (pos + max len 1) ab he
          omega
      | none =>
        rw [hm] at hab
        by_cases heq : pos = s.length
        · rw [if_pos heq] at hab
          exact absurd hab (List.not_mem_nil ab)
        · rw [if_neg heq] at hab
          have := ih (pos + 1) ab hab
          omega

theorem finditerAux_countP (r : RE) (s : List Char) (a b : Nat) :
    ∀ (fuel pos : Nat),
      (finditerAux r s fuel pos).countP (fun ab => ab.1 = a && ab.2 = b) =
        if (a, b) ∈ finditerAux r s fuel pos then 1 else 0 := by
  intro fuel
  induction fuel with
  | zero => intro pos; simp [finditerAux]
  | succ fuel ih =>
    intro pos
    unfold finditerAux
    by_cases hgt : pos > s.length
    · simp [hgt]
    · rw [if_neg hgt]
      cases hm : reMatchLen r (s.drop pos) with
      | some len =>
        by_cases hab : pos = a ∧ pos + len = b
        · obtain ⟨ha2, hb2⟩ := hab
          subst ha2
          subst hb2
          have hz : (finditerAux r s fuel (pos + max len 1)).countP
              (fun ab => ab.1 = pos && ab.2 = pos + len) = 0 := by
            apply List.countP_eq_zero.mpr
            intro ab2 hab2 hcon
            have hge := finditerAux_start_ge r s fuel (pos + max len 1) ab2 hab2
            simp only [Bool.and_eq_true, decide_eq_true_eq] at hcon
            omega
          rw [List.countP_cons, hz]
          simp
        · have hpred : (decide (pos = a) && decide (pos + len = b)) = false := by
            rcases not_and_or.mp hab with h | h <;> simp [h]
          rw [List.countP_cons, hpred, ih (pos + max len 1)]
          have hne : ¬((a, b) = (pos, pos + len)) := by
            intro hc
            injection hc with hc1 hc2
            exact hab ⟨hc1.symm, hc2.symm⟩
          simp only [List.mem_cons, hne, false_or]
          simp
      | none =>
        by_cases heq : pos = s.length
        · simp [heq]
        · rw [if_neg heq]
          exact ih (pos + 1)

theorem sum_map_ite_one {α : Type} (L : List α) (p : α → Prop) [DecidablePred p] :
    (L.map (fun x => if p x then 1 else 0)).sum = L.countP (fun x => decide (p x)) := by
  induction L with
  | nil => rfl
  | cons x t ih =>
    simp only [List.map_cons, List.sum_cons, List.countP_cons, ih]
    by_cases hp : p x
    · simp [hp, Nat.add_comm]
    · simp [hp]

theorem countP_enumFrom {α : Type} (q : α → Bool) :
    ∀ (l : List α) (n : Nat),
      (List.enumFrom n l).countP (fun p => q p.2) = l.countP q := by
  intro l
  induction l with
  | nil => intro n; rfl
  | cons x t ih =>
    intro n
    simp only [List.enumFrom, List.countP_cons, ih]

/-! ### Claim C5: no cross-category citation dedup

`process_citations` concatenates every pattern's `finditer` matches, so a
span emitted by k pattern categories appears exactly k times in the
output; overlapping matches across categories are all kept, and keyword
matching is case-insensitive.  Confirmed. -/

/-- C5: the number of citations with a given span equals the number of
pattern categories whose `finditer` emits that span (one record per
category, never merged); concretely, on `2001 (1) BCLR 36 (CC)` the
overlapping matches of the two case-citation categories both appear, and
the lowercase `act 108 of 1996` is matched by the `Act N of YYYY`
category under `re.IGNORECASE`. -/
theorem C5_no_citation_dedup :
    (∀ (text : List Char) (docId : String) (a b : Nat),
      (processCitations text docId).countP (fun c => c.start = a && c.stop = b) =
        citationPatterns.countP (fun r => (a, b) ∈ pyFindIter r text)) ∧
    processCitations "2001 (1) BCLR 36 (CC)".data "d" =
      [⟨"2001 (1) BCLR 36 (CC)", 0, 21, 0, "d"⟩,
       ⟨"2001 (1) BCLR 36", 0, 16, 2, "d"⟩] ∧
    processCitations "act 108 of 1996".data "d" =
      [⟨"act 108 of 1996", 0, 15, 4, "d"⟩] := by
  refine ⟨?_, by decide, by decide⟩
  intro text docId a b
  unfold processCitations
  rw [List.countP_flatten, List.map_map]
  have hcong : ∀ pr ∈ citationPatterns.enum,
      ((List.countP (fun c => c.start = a && c.stop = b)) ∘
        (fun pr : Nat × RE => (pyFindIter pr.2 text).map (fun ab =>
          ({ text := String.mk ((text.drop ab.1).take (ab.2 - ab.1))
             start := ab.1
             stop := ab.2
             pattern_type := pr.1
             document_id := docId } : Citation)))) pr =
      (fun pr : Nat × RE => if (a, b) ∈ pyFindIter pr.2 text then 1 else 0) pr := by
    intro pr _
    simp only [Function.comp_apply]
    rw [List.countP_map]
    exact finditerAux_countP pr.2 text a b (text.length + 1) 0
  rw [List.map_congr_left hcong]
  rw [sum_map_ite_one citationPatterns.enum (fun pr => (a, b) ∈ pyFindIter pr.2 text)]
  exact countP_enumFrom (fun r => decide ((a, b) ∈ pyFindIter r text)) citationPatterns 0

/-! ### Character-level facts (for claim C2) -/

theorem char_eq_of_toNat_eq {a b : Char} (h : a.toNat = b.toNat) : a = b :=
  Char.ext (UInt32.toNat.inj h)

theorem char_eq_iff_toNat (c d : Char) : c = d ↔ c.toNat = d.toNat :=
  ⟨fun h => congrArg Char.toNat h, char_eq_of_toNat_eq⟩

theorem toNat_ofNat_lt (n : Nat) (h : n < 55296) : (Char.ofNat n).toNat = n := by
  unfold Char.ofNat
  rw [dif_pos (Or.inl h)]
  rfl

theorem toNat_toLower (c : Char) :
    c.toLower.toNat = if 65 ≤ c.toNat ∧ c.toNat ≤ 90 then c.toNat + 32 else c.toNat := by
  unfold Char.toLower
  by_cases h : 65 ≤ c.toNat ∧ c.toNat ≤ 90
  · rw [if_pos ⟨h.1, h.2⟩, if_pos h]
    exact toNat_ofNat_lt _ (by omega)
  · rw [if_neg ?hx, if_neg h]
    case hx =>
      intro hc
      exact h ⟨hc.1, hc.2⟩

theorem ule_iff (a b : UInt32) : a ≤ b ↔ a.toNat ≤ b.toNat := by
  simp [UInt32.le_def, BitVec.le_def, UInt32.toNat]

theorem isDigit_iff (c : Char) : isDigitCh c = true ↔ 48 ≤ c.toNat ∧ c.toNat ≤ 57 := by
  unfold isDigitCh Char.isDigit
  rw [Bool.and_eq_true, decide_eq_true_eq, decide_eq_true_eq]
  have h1 : (c.val ≥ 48) ↔ 48 ≤ c.toNat := by
    rw [ge_iff_le, ule_iff]; exact Iff.rfl
  have h2 : (c.val ≤ 57) ↔ c.toNat ≤ 57 := by
    rw [ule_iff]; exact Iff.rfl
  rw [h1, h2]

theorem isAlpha_iff (c : Char) :
    c.isAlpha = true ↔ (65 ≤ c.toNat ∧ c.toNat ≤ 90) ∨ (97 ≤ c.toNat ∧ c.toNat ≤ 122) := by
  unfold Char.isAlpha Char.isUpper Char.isLower
  rw [Bool.or_eq_true, Bool.and_eq_true, Bool.and_eq_true]
  simp only [decide_eq_true_eq]
  have hA : (c.val ≥ 65) ↔ 65 ≤ c.toNat := by rw [ge_iff_le, ule_iff]; exact Iff.rfl
  have hZ : (c.val ≤ 90) ↔ c.toNat ≤ 90 := by rw [ule_iff]; exact Iff.rfl
  have ha : (c.val ≥ 97) ↔ 97 ≤ c.toNat := by rw [ge_iff_le, ule_iff]; exact Iff.rfl
  have hz : (c.val ≤ 122) ↔ c.toNat ≤ 122 := by rw [ule_iff]; exact Iff.rfl
  rw [hA, hZ, ha, hz]

theorem isWs_iff (c : Char) : isWs c = true ↔
    c.toNat = 32 ∨ c.toNat = 9 ∨ c.toNat = 10 ∨ c.toNat = 13 ∨
    c.toNat = 11 ∨ c.toNat = 12 := by
  unfold isWs
  simp only [Bool.or_eq_true, decide_eq_true_eq]
  rw [char_eq_iff_toNat c ' ', char_eq_iff_toNat c '\t', char_eq_iff_toNat c '\n',
    char_eq_iff_toNat c '\r']
  simp only [show (' ' : Char).toNat = 32 from rfl, show ('\t' : Char).toNat = 9 from rfl,
    show ('\n' : Char).toNat = 10 from rfl, show ('\r' : Char).toNat = 13 from rfl]
  tauto

theorem isWordChar_iff (c : Char) : isWordChar c = true ↔
    (65 ≤ c.toNat ∧ c.toNat ≤ 90) ∨ (97 ≤ c.toNat ∧ c.toNat ≤ 122) ∨
    (48 ≤ c.toNat ∧ c.toNat ≤ 57) ∨ c.toNat = 95 := by
  unfold isWordChar Char.isAlphanum
  rw [Bool.or_eq_true, Bool.or_eq_true]
  rw [show (decide (c = '_') = true) ↔ c.toNat = 95 from by
    rw [decide_eq_true_eq, char_eq_iff_toNat c '_',
      show ('_' : Char).toNat = 95 from rfl]]
  rw [isAlpha_iff]
  rw [show (c.isDigit = true) ↔ 48 ≤ c.toNat ∧ c.toNat ≤ 57 from isDigit_iff c]
  tauto

theorem toLower_eq_iff (c x : Char) (hx : 97 ≤ x.toNat) (hx2 : x.toNat ≤ 122) :
    c.toLower = x ↔ (c.toNat = x.toNat ∨ c.toNat = x.toNat - 32) := by
  constructor
  · intro h
    have h2 := congrArg Char.toNat h
    rw [toNat_toLower] at h2
    by_cases hc : 65 ≤ c.toNat ∧ c.toNat ≤ 90
    · rw [if_pos hc] at h2
      right
      omega
    · rw [if_neg hc] at h2
      left
      exact h2
  · intro h
    rcases h with h | h
    · have hcx : c = x := char_eq_of_toNat_eq h
      rw [hcx]
      apply char_eq_of_toNat_eq
      rw [toNat_toLower, if_neg (by omega)]
    · apply char_eq_of_toNat_eq
      rw [toNat_toLower, if_pos (by omega)]
      omega

theorem toLower_eq_lower_iff (c x X : Char) (h1 : 97 ≤ x.toNat) (h2 : x.toNat ≤ 122)
    (h3 : X.toNat + 32 = x.toNat) : c.toLower = x ↔ (c = x ∨ c = X) := by
  rw [toLower_eq_iff c x h1 h2, char_eq_iff_toNat c x, char_eq_iff_toNat c X]
  omega

theorem ws_not_digit {c : Char} (h : isWs c = true) : isDigitCh c = false := by
  cases hd : isDigitCh c
  · rfl
  · have h1 := (isWs_iff c).mp h
    have h2 := (isDigit_iff c).mp hd
    omega

theorem digit_not_ws {c : Char} (h : isDigitCh c = true) : isWs c = false := by
  cases hw : isWs c
  · rfl
  · have h1 := (isWs_iff c).mp hw
    have h2 := (isDigit_iff c).mp h
    omega

theorem lower_letter_not_ws {c x : Char} (hx : 97 ≤ x.toNat) (hx2 : x.toNat ≤ 122)
    (h : c.toLower = x) : isWs c = false := by
  cases hw : isWs c
  · rfl
  · have h1 := (isWs_iff c).mp hw
    have h2 := (toLower_eq_iff c x hx hx2).mp h
    omega

theorem lower_letter_not_digit {c x : Char} (hx : 97 ≤ x.toNat) (hx2 : x.toNat ≤ 122)
    (h : c.toLower = x) : isDigitCh c = false := by
  cases hd : isDigitCh c
  · rfl
  · have h1 := (isDigit_iff c).mp hd
    have h2 := (toLower_eq_iff c x hx hx2).mp h
    omega

theorem word_not_ws {c : Char} (h : isWordChar c = true) : isWs c = false := by
  cases hw : isWs c
  · rfl
  · have h1 := (isWs_iff c).mp hw
    have h2 := (isWordChar_iff c).mp h
    omega

theorem digit_word {c : Char} (h : isDigitCh c = true) : isWordChar c = true := by
  rw [isWordChar_iff]
  have h1 := (isDigit_iff c).mp h
  tauto

theorem word_ne_lparen {c : Char} (h : isWordChar c = true) : c ≠ '(' := by
  intro he
  have h2 := (isWordChar_iff c).mp h
  rw [he] at h2
  simp only [show ('(' : Char).toNat = 40 from rfl] at h2
  omega

theorem word_ne_rparen {c : Char} (h : isWordChar c = true) : c ≠ ')' := by
  intro he
  have h2 := (isWordChar_iff c).mp h
  rw [he] at h2
  simp only [show (')' : Char).toNat = 41 from rfl] at h2
  omega

theorem toLower_eq_symbol_iff (c x : Char) (hx : x.toNat < 65) :
    c.toLower = x ↔ c = x := by
  constructor
  · intro h
    have h2 := congrArg Char.toNat h
    rw [toNat_toLower] at h2
    by_cases hc : 65 ≤ c.toNat ∧ c.toNat ≤ 90
    · rw [if_pos hc] at h2
      exfalso
      omega
    · rw [if_neg hc] at h2
      exact char_eq_of_toNat_eq h2
  · intro h
    rw [h]
    apply char_eq_of_toNat_eq
    rw [toNat_toLower, if_neg (by omega)]

/-! ### Parser-primitive characterisations (for claim C2) -/

theorem stripLitCi_sound : ∀ (w s r : List Char), stripLitCi w s = some r →
    ∃ a, s = a ++ r ∧ a.map Char.toLower = w.map Char.toLower := by
  intro w
  induction w with
  | nil =>
    intro s r h
    simp only [stripLitCi, Option.some.injEq] at h
    exact ⟨[], by simp [h], rfl⟩
  | cons c w ih =>
    intro s r h
    cases s with
    | nil => exact absurd h (by simp [stripLitCi])
    | cons d t =>
      unfold stripLitCi at h
      by_cases hc : d.toLower = c.toLower
      · rw [if_pos hc] at h
        obtain ⟨a, hs, hm⟩ := ih t r h
        exact ⟨d :: a, by simp [hs], by simp [hm, hc]⟩
      · rw [if_neg hc] at h
        exact absurd h (by simp)

theorem stripLitCi_complete : ∀ (w a r : List Char),
    a.map Char.toLower = w.map Char.toLower → stripLitCi w (a ++ r) = some r := by
  intro w
  induction w with
  | nil =>
    intro a r h
    have ha : a = [] := by simpa using h
    rw [ha]
    rfl
  | cons c w ih =>
    intro a r h
    cases a with
    | nil => exact absurd h (by simp)
    | cons d t =>
      simp only [List.map_cons, List.cons.injEq] at h
      simp only [List.cons_append]
      unfold stripLitCi
      rw [if_pos h.1]
      exact ih t r h.2

theorem wsPlus_sound (s r : List Char) (h : wsPlus s = some r) :
    ∃ w, s = w ++ r ∧ IsWsRun w ∧ headNot isWs r = true := by
  cases s with
  | nil => exact Option.noConfusion h
  | cons c rest =>
    have h2 : (if isWs c = true then some (rest.dropWhile isWs) else none) = some r := h
    by_cases hc : isWs c = true
    · rw [if_pos hc] at h2
      injection h2 with h2
      refine ⟨c :: rest.takeWhile isWs, ?_, ⟨by simp, ?_⟩, ?_⟩
      · rw [← h2, List.cons_append, takeWhile_append_dropWhile']
      · intro x hx
        rcases List.mem_cons.mp hx with he | he
        · exact he ▸ hc
        · exact takeWhile_all isWs rest x he
      · rw [← h2]
        exact headNot_dropWhile isWs rest
    · rw [if_neg hc] at h2
      exact Option.noConfusion h2

theorem wsPlus_complete (w r : List Char) (hw : IsWsRun w) (hr : headNot isWs r = true) :
    wsPlus (w ++ r) = some r := by
  obtain ⟨hne, hall⟩ := hw
  cases w with
  | nil => exact absurd rfl hne
  | cons c t =>
    show (if isWs c = true then some ((t ++ r).dropWhile isWs) else none) = some r
    rw [if_pos (hall c (by simp))]
    rw [dropWhile_append_all (fun d hd => hall d (by simp [hd])), dropWhile_headNot hr]

theorem digits1_sound (s n r : List Char) (h : digits1 s = some (n, r)) :
    s = n ++ r ∧ IsDigitRun n ∧ headNot isDigitCh r = true := by
  cases s with
  | nil => exact Option.noConfusion h
  | cons c rest =>
    have h2 : (if isDigitCh c = true then
        some (c :: rest.takeWhile isDigitCh, rest.dropWhile isDigitCh)
      else none) = some (n, r) := h
    by_cases hc : isDigitCh c = true
    · rw [if_pos hc] at h2
      simp only [Option.some.injEq, Prod.mk.injEq] at h2
      refine ⟨?_, ⟨by rw [← h2.1]; simp, ?_⟩, ?_⟩
      · rw [← h2.1, ← h2.2, List.cons_append, takeWhile_append_dropWhile']
      · intro x hx
        rw [← h2.1] at hx
        rcases List.mem_cons.mp hx with he | he
        · exact he ▸ hc
        · exact takeWhile_all isDigitCh rest x he
      · rw [← h2.2]
        exact headNot_dropWhile isDigitCh rest
    · rw [if_neg hc] at h2
      exact Option.noConfusion h2

theorem digits1_complete (n r : List Char) (hn : IsDigitRun n)
    (hr : headNot isDigitCh r = true) : digits1 (n ++ r) = some (n, r) := by
  obtain ⟨hne, hall⟩ := hn
  cases n with
  | nil => exact absurd rfl hne
  | cons c t =>
    show (if isDigitCh c = true then
        some (c :: (t ++ r).takeWhile isDigitCh, (t ++ r).dropWhile isDigitCh)
      else none) = some (c :: t, r)
    rw [if_pos (hall c (by simp))]
    rw [takeWhile_append_all (fun d hd => hall d (by simp [hd])), takeWhile_headNot hr,
      dropWhile_append_all (fun d hd => hall d (by simp [hd])), dropWhile_headNot hr]
    simp

theorem digits4_sound (s y r : List Char) (h : digits4 s = some (y, r)) :
    s = y ++ r ∧ IsYear y := by
  match s with
  | [] => exact Option.noConfusion h
  | [a] => exact Option.noConfusion h
  | [a, b] => exact Option.noConfusion h
  | [a, b, c] => exact Option.noConfusion h
  | a :: b :: c :: d :: rest =>
    have h2 : (if (isDigitCh a && isDigitCh b && isDigitCh c && isDigitCh d) = true then
        some (([a, b, c, d] : List Char), rest)
      else none) = some (y, r) := h
    by_cases hd : (isDigitCh a && isDigitCh b && isDigitCh c && isDigitCh d) = true
    · rw [if_pos hd] at h2
      simp only [Option.some.injEq, Prod.mk.injEq] at h2
      simp only [Bool.and_eq_true] at hd
      have hall : ∀ x ∈ ([a, b, c, d] : List Char), isDigitCh x = true := by
        intro x hx
        rcases List.mem_cons.mp hx with he | he
        · exact he ▸ hd.1.1.1
        rcases List.mem_cons.mp he with he2 | he2
        · exact he2 ▸ hd.1.1.2
        rcases List.mem_cons.mp he2 with he3 | he3
        · exact he3 ▸ hd.1.2
        rcases List.mem_cons.mp he3 with he4 | he4
        · exact he4 ▸ hd.2
        · exact absurd he4 (List.not_mem_nil x)
      constructor
      · rw [← h2.1, ← h2.2]
        rfl
      · rw [← h2.1]
        exact ⟨rfl, hall⟩
    · rw [if_neg hd] at h2
      exact Option.noConfusion h2

theorem digits4_complete (y r : List Char) (hy : IsYear y) :
    digits4 (y ++ r) = some (y, r) := by
  obtain ⟨hlen, hall⟩ := hy
  match y, hlen with
  | [a, b, c, d], _ =>
    show (if (isDigitCh a && isDigitCh b && isDigitCh c && isDigitCh d) = true then
        some (([a, b, c, d] : List Char), r)
      else none) = some ([a, b, c, d], r)
    rw [if_pos]
    simp only [Bool.and_eq_true]
    exact ⟨⟨⟨hall a (by simp), hall b (by simp)⟩, hall c (by simp)⟩, hall d (by simp)⟩

theorem wordRun1_sound (s w r : List Char) (h : wordRun1 s = some (w, r)) :
    s = w ++ r ∧ IsWordRun w ∧ headNot isWordChar r = true := by
  cases s with
  | nil => exact Option.noConfusion h
  | cons c rest =>
    have h2 : (if isWordChar c = true then
        some (c :: rest.takeWhile isWordChar, rest.dropWhile isWordChar)
      else none) = some (w, r) := h
    by_cases hc : isWordChar c = true
    · rw [if_pos hc] at h2
      simp only [Option.some.injEq, Prod.mk.injEq] at h2
      refine ⟨?_, ⟨by rw [← h2.1]; simp, ?_⟩, ?_⟩
      · rw [← h2.1, ← h2.2, List.cons_append, takeWhile_append_dropWhile']
      · intro x hx
        rw [← h2.1] at hx
        rcases List.mem_cons.mp hx with he | he
        · exact he ▸ hc
        · exact takeWhile_all isWordChar rest x he
      · rw [← h2.2]
        exact headNot_dropWhile isWordChar rest
    · rw [if_neg hc] at h2
      exact Option.noConfusion h2

theorem wordRun1_complete (w r : List Char) (hw : IsWordRun w)
    (hr : headNot isWordChar r = true) : wordRun1 (w ++ r) = some (w, r) := by
  obtain ⟨hne, hall⟩ := hw
  cases w with
  | nil => exact absurd rfl hne
  | cons c t =>
    show (if isWordChar c = true then
        some (c :: (t ++ r).takeWhile isWordChar, (t ++ r).dropWhile isWordChar)
      else none) = some (c :: t, r)
    rw [if_pos (hall c (by simp))]
    rw [takeWhile_append_all (fun d hd => hall d (by simp [hd])), takeWhile_headNot hr,
      dropWhile_append_all (fun d hd => hall d (by simp [hd])), dropWhile_headNot hr]
    simp

theorem dropWhile_ws_run (w r : List Char) (hw : IsWsRun0 w)
    (hr : headNot isWs r = true) : (w ++ r).dropWhile isWs = r := by
  rw [dropWhile_append_all hw, dropWhile_headNot hr]

theorem searchWith_some {α : Type} (m : List Char → Option α) :
    ∀ (s : List Char) (x : α), searchWith m s = some x → ∃ i, m (s.drop i) = some x := by
  intro s
  induction s with
  | nil => intro x h; exact ⟨0, h⟩
  | cons c rest ih =>
    intro x h
    cases hm : m (c :: rest) with
    | some y =>
      refine ⟨0, ?_⟩
      rw [List.drop_zero, hm]
      have h3 : (match m (c :: rest) with
          | some a => some a
          | none => searchWith m rest) = some x := h
      rw [hm] at h3
      exact h3
    | none =>
      have h3 : (match m (c :: rest) with
          | some a => some a
          | none => searchWith m rest) = some x := h
      rw [hm] at h3
      obtain ⟨i, hi⟩ := ih x h3
      exact ⟨i + 1, by simpa using hi⟩

theorem searchWith_isSome {α : Type} (m : List Char → Option α) :
    ∀ (s : List Char) (i : Nat) (x : α),
      m (s.drop i) = some x → (searchWith m s).isSome = true := by
  intro s
  induction s with
  | nil =>
    intro i x h
    rw [List.drop_nil] at h
    show (m []).isSome = true
    rw [h]
    rfl
  | cons c rest ih =>
    intro i x h
    show (match m (c :: rest) with
        | some a => some a
        | none => searchWith m rest).isSome = true
    cases hm : m (c :: rest) with
    | some y => rfl
    | none =>
      cases i with
      | zero =>
        rw [List.drop_zero, hm] at h
        exact Option.noConfusion h
      | succ i =>
        exact ih i x (by simpa using h)

theorem headNot_cons_false (p : Char → Bool) (c : Char) (X : List Char)
    (hc : p c = false) : headNot p (c :: X) = true := by
  simp [headNot, hc]

theorem headNot_append (p : Char → Bool) (w r : List Char) (hne : w ≠ [])
    (hall : ∀ c ∈ w, p c = false) : headNot p (w ++ r) = true := by
  cases w with
  | nil => exact absurd rfl hne
  | cons c t => simp [headNot, hall c (by simp)]

theorem headNot_wsrun0_cons (p : Char → Bool) (u : List Char) (c : Char) (X : List Char)
    (hu : ∀ d ∈ u, p d = false) (hc : p c = false) : headNot p (u ++ c :: X) = true := by
  cases u with
  | nil => simp [headNot, hc]
  | cons d t => simp [headNot, hu d (by simp)]

theorem ws_not_word {c : Char} (h : isWs c = true) : isWordChar c = false := by
  cases hw : isWordChar c
  · rfl
  · rw [word_not_ws hw] at h
    exact absurd h (by simp)

theorem ciAct_iff (a : List Char) : a.map Char.toLower = ['a', 'c', 't'] ↔ IsCiAct a := by
  constructor
  · intro h
    cases a with
    | nil => exact absurd h (by simp)
    | cons c1 t1 =>
      cases t1 with
      | nil => exact absurd h (by simp)
      | cons c2 t2 =>
        cases t2 with
        | nil => exact absurd h (by simp)
        | cons c3 t3 =>
          cases t3 with
          | cons c4 t4 => exact absurd h (by simp)
          | nil =>
            simp only [List.map_cons, List.map_nil, List.cons.injEq, and_true] at h
            exact ⟨c1, c2, c3, rfl,
              (toLower_eq_lower_iff c1 'a' 'A' (by decide) (by decide) (by decide)).mp h.1,
              (toLower_eq_lower_iff c2 'c' 'C' (by decide) (by decide) (by decide)).mp h.2.1,
              (toLower_eq_lower_iff c3 't' 'T' (by decide) (by decide) (by decide)).mp h.2.2⟩
  · rintro ⟨c1, c2, c3, rfl, h1, h2, h3⟩
    rcases h1 with rfl | rfl <;> rcases h2 with rfl | rfl <;> rcases h3 with rfl | rfl <;> rfl

theorem ciOf_iff (a : List Char) : a.map Char.toLower = ['o', 'f'] ↔ IsCiOf a := by
  constructor
  · intro h
    cases a with
    | nil => exact absurd h (by simp)
    | cons c1 t1 =>
      cases t1 with
      | nil => exact absurd h (by simp)
      | cons c2 t2 =>
        cases t2 with
        | cons c3 t3 => exact absurd h (by simp)
        | nil =>
          simp only [List.map_cons, List.map_nil, List.cons.injEq, and_true] at h
          exact ⟨c1, c2, rfl,
            (toLower_eq_lower_iff c1 'o' 'O' (by decide) (by decide) (by decide)).mp h.1,
            (toLower_eq_lower_iff c2 'f' 'F' (by decide) (by decide) (by decide)).mp h.2⟩
  · rintro ⟨c1, c2, rfl, h1, h2⟩
    rcases h1 with rfl | rfl <;> rcases h2 with rfl | rfl <;> rfl

theorem ciNoDot_iff (a : List Char) : a.map Char.toLower = ['n', 'o', '.'] ↔ IsCiNoDot a := by
  constructor
  · intro h
    cases a with
    | nil => exact absurd h (by simp)
    | cons c1 t1 =>
      cases t1 with
      | nil => exact absurd h (by simp)
      | cons c2 t2 =>
        cases t2 with
        | nil => exact absurd h (by simp)
        | cons c3 t3 =>
          cases t3 with
          | cons c4 t4 => exact absurd h (by simp)
          | nil =>
            simp only [List.map_cons, List.map_nil, List.cons.injEq, and_true] at h
            have h3 : c3 = '.' := (toLower_eq_symbol_iff c3 '.' (by decide)).mp h.2.2
            subst h3
            exact ⟨c1, c2, rfl,
              (toLower_eq_lower_iff c1 'n' 'N' (by decide) (by decide) (by decide)).mp h.1,
              (toLower_eq_lower_iff c2 'o' 'O' (by decide) (by decide) (by decide)).mp h.2.1⟩
  · rintro ⟨c1, c2, rfl, h1, h2⟩
    rcases h1 with rfl | rfl <;> rcases h2 with rfl | rfl <;> rfl

theorem actTail_sound (s n y : List Char) (h : actTail s = some (n, y)) :
    ∃ w2 o w3 rest, s = n ++ (w2 ++ (o ++ (w3 ++ (y ++ rest)))) ∧
      IsDigitRun n ∧ IsWsRun w2 ∧ IsCiOf o ∧ IsWsRun w3 ∧ IsYear y := by
  unfold actTail at h
  split at h
  · exact Option.noConfusion h
  · rename_i n0 s1 heq1
    split at h
    · exact Option.noConfusion h
    · rename_i s2 heq2
      split at h
      · exact Option.noConfusion h
      · rename_i s3 heq3
        split at h
        · exact Option.noConfusion h
        · rename_i s4 heq4
          split at h
          · exact Option.noConfusion h
          · rename_i y0 rest heq5
            injection h with h
            rw [Prod.mk.injEq] at h
            obtain ⟨hn0, hy0⟩ := h
            subst hn0
            subst hy0
            obtain ⟨he1, hdr, _⟩ := digits1_sound s _ s1 heq1
            obtain ⟨w2, he2, hw2, _⟩ := wsPlus_sound s1 s2 heq2
            obtain ⟨o, he3, homap⟩ := stripLitCi_sound ['o', 'f'] s2 s3 heq3
            obtain ⟨w3, he4, hw3, _⟩ := wsPlus_sound s3 s4 heq4
            obtain ⟨he5, hyy⟩ := digits4_sound s4 _ rest heq5
            refine ⟨w2, o, w3, rest, ?_, hdr, hw2, (ciOf_iff o).mp homap, hw3, hyy⟩
            rw [he1, he2, he3, he4, he5]

theorem actTail_complete (n w2 o w3 y rest : List Char) (hn : IsDigitRun n)
    (hw2 : IsWsRun w2) (ho : IsCiOf o) (hw3 : IsWsRun w3) (hy : IsYear y) :
    actTail (n ++ (w2 ++ (o ++ (w3 ++ (y ++ rest))))) = some (n, y) := by
  obtain ⟨c1, c2, rfl, hc1, hc2⟩ := ho
  have hyne : y ≠ [] := by
    intro he
    rw [he] at hy
    exact absurd hy.1 (by decide)
  have e1 : digits1 (n ++ (w2 ++ ([c1, c2] ++ (w3 ++ (y ++ rest))))) =
      some (n, w2 ++ ([c1, c2] ++ (w3 ++ (y ++ rest)))) :=
    digits1_complete _ _ hn
      (headNot_append _ _ _ hw2.1 (fun c hc => ws_not_digit (hw2.2 c hc)))
  have e2 : wsPlus (w2 ++ ([c1, c2] ++ (w3 ++ (y ++ rest)))) =
      some ([c1, c2] ++ (w3 ++ (y ++ rest))) :=
    wsPlus_complete _ _ hw2 (by rcases hc1 with rfl | rfl <;> rfl)
  have e3 : stripLitCi ['o', 'f'] ([c1, c2] ++ (w3 ++ (y ++ rest))) =
      some (w3 ++ (y ++ rest)) :=
    stripLitCi_complete _ _ _ (by rcases hc1 with rfl | rfl <;> rcases hc2 with rfl | rfl <;> rfl)
  have e4 : wsPlus (w3 ++ (y ++ rest)) = some (y ++ rest) :=
    wsPlus_complete _ _ hw3
      (headNot_append _ _ _ hyne (fun c hc => digit_not_ws (hy.2 c hc)))
  have e5 : digits4 (y ++ rest) = some (y, rest) := digits4_complete _ _ hy
  unfold actTail
  simp only [e1, e2, e3, e4, e5]

theorem actShapeAt_of_tail (s a w1 s2 n y : List Char)
    (hes : s = a ++ (w1 ++ s2)) (ha : IsCiAct a) (hw1 : IsWsRun w1)
    (h : actTail s2 = some (n, y)) : ActShapeAt s n y := by
  obtain ⟨w2, o, w3, rest, he, hn, hw2, ho, hw3, hy⟩ := actTail_sound s2 n y h
  refine ⟨a, w1, [], w2, o, w3, rest, ?_, ha, hw1, Or.inl rfl, hn, hw2, ho, hw3, hy⟩
  rw [hes, he]
  simp [List.append_assoc]

theorem actShapeAt_of_tail_no (s a w1 no tk s2 n y : List Char)
    (hes : s = a ++ (w1 ++ (no ++ (tk ++ s2))))
    (ha : IsCiAct a) (hw1 : IsWsRun w1) (hno : IsCiNoDot no) (htk : IsWsRun0 tk)
    (h : actTail s2 = some (n, y)) : ActShapeAt s n y := by
  obtain ⟨w2, o, w3, rest, he, hn, hw2, ho, hw3, hy⟩ := actTail_sound s2 n y h
  refine ⟨a, w1, no ++ tk, w2, o, w3, rest, ?_, ha, hw1,
    Or.inr ⟨no, tk, rfl, hno, htk⟩, hn, hw2, ho, hw3, hy⟩
  rw [hes, he]
  simp [List.append_assoc]

theorem actMatchAt_sound (s n y : List Char) (h : actMatchAt s = some (n, y)) :
    ActShapeAt s n y := by
  unfold actMatchAt at h
  split at h
  · exact Option.noConfusion h
  · rename_i s1 heq1
    split at h
    · exact Option.noConfusion h
    · rename_i s2 heq2
      obtain ⟨a, hs, hamap⟩ := stripLitCi_sound _ _ _ heq1
      obtain ⟨w1, hs1, hw1, _⟩ := wsPlus_sound _ _ heq2
      have hes : s = a ++ (w1 ++ s2) := by rw [hs, hs1]
      have ha : IsCiAct a := (ciAct_iff a).mp (by rw [hamap]; decide)
      split at h
      · rename_i s3 heq3
        split at h
        · rename_i r heq4
          injection h with h
          subst h
          obtain ⟨no2, hs2, hnomap⟩ := stripLitCi_sound _ _ _ heq3
          refine actShapeAt_of_tail_no s a w1 no2 (s3.takeWhile isWs) (s3.dropWhile isWs)
            _ _ ?_ ha hw1 ?_ (takeWhile_all isWs s3) heq4
          · rw [hes, hs2, takeWhile_append_dropWhile' isWs s3]
          · exact (ciNoDot_iff no2).mp (by rw [hnomap]; decide)
        · rename_i heq4
          exact actShapeAt_of_tail s a w1 s2 n y hes ha hw1 h
      · rename_i heq3
        exact actShapeAt_of_tail s a w1 s2 n y hes ha hw1 h

theorem actMatchAt_complete (t n y : List Char) (h : ActShapeAt t n y) :
    actMatchAt t = some (n, y) := by
  obtain ⟨a, w1, np, w2, o, w3, rest, ht, ha, hw1, hnp, hn, hw2, ho, hw3, hy⟩ := h
  obtain ⟨c1, c2, c3, rfl, h1, h2, h3⟩ := ha
  have hnne : n ≠ [] := hn.1
  have hmap : ([c1, c2, c3] : List Char).map Char.toLower =
      (['a', 'c', 't'] : List Char).map Char.toLower := by
    rcases h1 with rfl | rfl <;> rcases h2 with rfl | rfl <;> rcases h3 with rfl | rfl <;> rfl
  rcases hnp with rfl | ⟨no, tk, rfl, hno, htk⟩
  · have ht' : t = [c1, c2, c3] ++ (w1 ++ (n ++ (w2 ++ (o ++ (w3 ++ (y ++ rest)))))) := by
      rw [ht]
      simp [List.append_assoc]
    have e1 : stripLitCi ['a', 'c', 't']
        ([c1, c2, c3] ++ (w1 ++ (n ++ (w2 ++ (o ++ (w3 ++ (y ++ rest))))))) =
        some (w1 ++ (n ++ (w2 ++ (o ++ (w3 ++ (y ++ rest)))))) :=
      stripLitCi_complete _ _ _ hmap
    have e2 : wsPlus (w1 ++ (n ++ (w2 ++ (o ++ (w3 ++ (y ++ rest)))))) =
        some (n ++ (w2 ++ (o ++ (w3 ++ (y ++ rest))))) :=
      wsPlus_complete _ _ hw1
        (headNot_append _ _ _ hnne (fun c hc => digit_not_ws (hn.2 c hc)))
    have e3 : stripLitCi ['n', 'o', '.'] (n ++ (w2 ++ (o ++ (w3 ++ (y ++ rest))))) = none := by
      cases n with
      | nil => exact absurd rfl hnne
      | cons d t1 =>
        have hd := hn.2 d (by simp)
        have hcon2 : ¬(d.toLower = ('n' : Char).toLower) := by
          intro hcon
          have hdl : d.toLower = 'n' := hcon
          rcases (toLower_eq_lower_iff d 'n' 'N' (by decide) (by decide) (by decide)).mp hdl
            with rfl | rfl
          · exact absurd hd (by decide)
          · exact absurd hd (by decide)
        show (if d.toLower = ('n' : Char).toLower then
            stripLitCi ['o', '.'] (t1 ++ (w2 ++ (o ++ (w3 ++ (y ++ rest))))) else none) = none
        rw [if_neg hcon2]
    have e4 : actTail (n ++ (w2 ++ (o ++ (w3 ++ (y ++ rest))))) = some (n, y) :=
      actTail_complete _ _ _ _ _ _ hn hw2 ho hw3 hy
    rw [ht']
    unfold actMatchAt
    simp only [e1, e2, e3, e4]
  · obtain ⟨d1, d2, rfl, hd1, hd2⟩ := hno
    have ht' : t = [c1, c2, c3] ++ (w1 ++ ([d1, d2, '.'] ++
        (tk ++ (n ++ (w2 ++ (o ++ (w3 ++ (y ++ rest)))))))) := by
      rw [ht]
      simp [List.append_assoc]
    have e1 : stripLitCi ['a', 'c', 't'] ([c1, c2, c3] ++ (w1 ++ ([d1, d2, '.'] ++
        (tk ++ (n ++ (w2 ++ (o ++ (w3 ++ (y ++ rest))))))))) =
        some (w1 ++ ([d1, d2, '.'] ++ (tk ++ (n ++ (w2 ++ (o ++ (w3 ++ (y ++ rest)))))))) :=
      stripLitCi_complete _ _ _ hmap
    have e2 : wsPlus (w1 ++ ([d1, d2, '.'] ++
        (tk ++ (n ++ (w2 ++ (o ++ (w3 ++ (y ++ rest)))))))) =
        some ([d1, d2, '.'] ++ (tk ++ (n ++ (w2 ++ (o ++ (w3 ++ (y ++ rest))))))) :=
      wsPlus_complete _ _ hw1 (by rcases hd1 with rfl | rfl <;> rfl)
    have e3 : stripLitCi ['n', 'o', '.'] ([d1, d2, '.'] ++
        (tk ++ (n ++ (w2 ++ (o ++ (w3 ++ (y ++ rest))))))) =
        some (tk ++ (n ++ (w2 ++ (o ++ (w3 ++ (y ++ rest)))))) :=
      stripLitCi_complete _ _ _
        (by rcases hd1 with rfl | rfl <;> rcases hd2 with rfl | rfl <;> rfl)
    have e4 : (tk ++ (n ++ (w2 ++ (o ++ (w3 ++ (y ++ rest)))))).dropWhile isWs =
        n ++ (w2 ++ (o ++ (w3 ++ (y ++ rest)))) :=
      dropWhile_ws_run _ _ htk
        (headNot_append _ _ _ hnne (fun c hc => digit_not_ws (hn.2 c hc)))
    have e5 : actTail (n ++ (w2 ++ (o ++ (w3 ++ (y ++ rest))))) = some (n, y) :=
      actTail_complete _ _ _ _ _ _ hn hw2 ho hw3 hy
    rw [ht']
    unfold actMatchAt
    simp only [e1, e2, e3, e4, e5]

theorem drop_append_self {α : Type} (a b : List α) : (a ++ b).drop a.length = b := by
  induction a with
  | nil => rfl
  | cons c t ih => exact ih

theorem caseAfterReporter_sound (s court : List Char) (h : caseAfterReporter s = some court) :
    ∃ u5 q u6 tail, s = u5 ++ (q ++ (u6 ++ ('(' :: (court ++ (')' :: tail))))) ∧
      IsWsRun0 u5 ∧ IsDigitRun q ∧ IsWsRun0 u6 ∧ IsWordRun court := by
  unfold caseAfterReporter at h
  split at h
  · exact Option.noConfusion h
  · rename_i q s2 heq1
    split at h
    · exact Option.noConfusion h
    · rename_i c s4 heq2
      split at h
      · rename_i hc
        subst hc
        split at h
        · exact Option.noConfusion h
        · rename_i court2 s5 heq3
          split at h
          · exact Option.noConfusion h
          · rename_i d s6
            split at h
            · rename_i hd
              subst hd
              injection h with h
              subst h
              obtain ⟨he1, hq, _⟩ := digits1_sound _ _ _ heq1
              obtain ⟨he3, hcourt, _⟩ := wordRun1_sound _ _ _ heq3
              have hu5e : s = s.takeWhile isWs ++ (q ++ s2) := by
                conv_lhs => rw [← takeWhile_append_dropWhile' isWs s]
                rw [he1]
              obtain ⟨u5, hu5e2, hu5w⟩ : ∃ u, s = u ++ (q ++ s2) ∧ IsWsRun0 u :=
                ⟨s.takeWhile isWs, hu5e, takeWhile_all isWs s⟩
              have hs2 : s2 = s2.takeWhile isWs ++ ('(' :: (court2 ++ (')' :: s6))) := by
                conv_lhs => rw [← takeWhile_append_dropWhile' isWs s2]
                rw [heq2, he3]
              obtain ⟨u6, hu6e, hu6w⟩ :
                  ∃ u, s2 = u ++ ('(' :: (court2 ++ (')' :: s6))) ∧ IsWsRun0 u :=
                ⟨s2.takeWhile isWs, hs2, takeWhile_all isWs s2⟩
              refine ⟨u5, q, u6, s6, ?_, hu5w, hq, hu6w, hcourt⟩
              rw [hu5e2, hu6e]
            · exact Option.noConfusion h
      · exact Option.noConfusion h

theorem caseAfterReporter_complete (u5 q u6 court rest : List Char)
    (hu5 : IsWsRun0 u5) (hq : IsDigitRun q) (hu6 : IsWsRun0 u6) (hcourt : IsWordRun court) :
    caseAfterReporter (u5 ++ (q ++ (u6 ++ ('(' :: (court ++ (')' :: rest)))))) = some court := by
  have e1 : (u5 ++ (q ++ (u6 ++ ('(' :: (court ++ (')' :: rest)))))).dropWhile isWs =
      q ++ (u6 ++ ('(' :: (court ++ (')' :: rest)))) :=
    dropWhile_ws_run _ _ hu5
      (headNot_append _ _ _ hq.1 (fun c hc => digit_not_ws (hq.2 c hc)))
  have e2 : digits1 (q ++ (u6 ++ ('(' :: (court ++ (')' :: rest))))) =
      some (q, u6 ++ ('(' :: (court ++ (')' :: rest)))) :=
    digits1_complete _ _ hq
      (headNot_wsrun0_cons _ _ _ _ (fun d hd => ws_not_digit (hu6 d hd)) (by decide))
  have e3 : (u6 ++ ('(' :: (court ++ (')' :: rest)))).dropWhile isWs =
      '(' :: (court ++ (')' :: rest)) :=
    dropWhile_ws_run _ _ hu6 (headNot_cons_false _ _ _ (by decide))
  have e4 : wordRun1 (court ++ (')' :: rest)) = some (court, ')' :: rest) :=
    wordRun1_complete _ _ hcourt (headNot_cons_false _ _ _ (by decide))
  unfold caseAfterReporter
  simp only [e1, e2, e3, e4, reduceIte]

theorem caseReporterLoop_sound (W s9 : List Char) : ∀ (m : Nat) (rep court : List Char),
    caseReporterLoop W s9 m = some (rep, court) →
    ∃ k, k + 1 ≤ m ∧ rep = W.take (k + 1) ∧
      caseAfterReporter (W.drop (k + 1) ++ s9) = some court := by
  intro m
  induction m with
  | zero => intro rep court h; exact Option.noConfusion h
  | succ m2 ih =>
    intro rep court h
    have h2 : (match caseAfterReporter (W.drop (m2 + 1) ++ s9) with
        | some court => some (W.take (m2 + 1), court)
        | none => caseReporterLoop W s9 m2) = some (rep, court) := h
    split at h2
    · rename_i court2 heq
      injection h2 with h2
      rw [Prod.mk.injEq] at h2
      obtain ⟨hr, hc⟩ := h2
      exact ⟨m2, Nat.le_refl _, hr.symm, by rw [heq, hc]⟩
    · rename_i heq
      obtain ⟨k, hk, hr, hc⟩ := ih rep court h2
      exact ⟨k, by omega, hr, hc⟩

theorem caseReporterLoop_isSome (W s9 : List Char) : ∀ (m j : Nat) (c : List Char),
    j + 1 ≤ m → caseAfterReporter (W.drop (j + 1) ++ s9) = some c →
    (caseReporterLoop W s9 m).isSome = true := by
  intro m
  induction m with
  | zero =>
    intro j c hj _
    exact absurd hj (by omega)
  | succ m2 ih =>
    intro j c hj hca
    show (match caseAfterReporter (W.drop (m2 + 1) ++ s9) with
        | some court => some (W.take (m2 + 1), court)
        | none => caseReporterLoop W s9 m2).isSome = true
    cases hm : caseAfterReporter (W.drop (m2 + 1) ++ s9) with
    | some g => rfl
    | none =>
      by_cases hjm : j = m2
      · subst hjm
        rw [hm] at hca
        exact Option.noConfusion hca
      · exact ih j c (by omega) hca

theorem caseMatchAt_sound (s y rep court : List Char)
    (h : caseMatchAt s = some (y, rep, court)) : CaseShapeAt s y rep court := by
  unfold caseMatchAt at h
  split at h
  · exact Option.noConfusion h
  · rename_i y0 s1 heq1
    split at h
    · exact Option.noConfusion h
    · rename_i c s3 heq2
      split at h
      · rename_i hc
        subst hc
        split at h
        · exact Option.noConfusion h
        · rename_i p s5 heq3
          split at h
          · exact Option.noConfusion h
          · rename_i d s7 heq4
            split at h
            · rename_i hd
              subst hd
              split at h
              · exact Option.noConfusion h
              · rename_i W s9 heq5
                split at h
                · exact Option.noConfusion h
                · rename_i rep0 court0 heq6
                  injection h with h
                  simp only [Prod.mk.injEq] at h
                  obtain ⟨rfl, rfl, rfl⟩ := h
                  obtain ⟨hey, hyy⟩ := digits4_sound _ _ _ heq1
                  obtain ⟨hep, hp, _⟩ := digits1_sound _ _ _ heq3
                  obtain ⟨heW, hW, _⟩ := wordRun1_sound _ _ _ heq5
                  obtain ⟨k, hk1, hrepe, hca⟩ := caseReporterLoop_sound W s9 _ _ _ heq6
                  obtain ⟨u5, q2, u6, tail, heca, hu5, hq2, hu6, hcourt⟩ :=
                    caseAfterReporter_sound _ _ hca
                  have h1e : s1 = s1.takeWhile isWs ++ ('(' :: s3) := by
                    conv_lhs => rw [← takeWhile_append_dropWhile' isWs s1]
                    rw [heq2]
                  obtain ⟨u1, hu1e, hu1w⟩ : ∃ u, s1 = u ++ ('(' :: s3) ∧ IsWsRun0 u :=
                    ⟨s1.takeWhile isWs, h1e, takeWhile_all isWs s1⟩
                  have h3e : s3 = s3.takeWhile isWs ++ (p ++ s5) := by
                    conv_lhs => rw [← takeWhile_append_dropWhile' isWs s3]
                    rw [hep]
                  obtain ⟨u2, hu2e, hu2w⟩ : ∃ u, s3 = u ++ (p ++ s5) ∧ IsWsRun0 u :=
                    ⟨s3.takeWhile isWs, h3e, takeWhile_all isWs s3⟩
                  have h5e : s5 = s5.takeWhile isWs ++ (')' :: s7) := by
                    conv_lhs => rw [← takeWhile_append_dropWhile' isWs s5]
                    rw [heq4]
                  obtain ⟨u3, hu3e, hu3w⟩ : ∃ u, s5 = u ++ (')' :: s7) ∧ IsWsRun0 u :=
                    ⟨s5.takeWhile isWs, h5e, takeWhile_all isWs s5⟩
                  have h7e : s7 = s7.takeWhile isWs ++ (W ++ s9) := by
                    conv_lhs => rw [← takeWhile_append_dropWhile' isWs s7]
                    rw [heW]
                  obtain ⟨u4, hu4e, hu4w⟩ : ∃ u, s7 = u ++ (W ++ s9) ∧ IsWsRun0 u :=
                    ⟨s7.takeWhile isWs, h7e, takeWhile_all isWs s7⟩
                  have hWsplit : W ++ s9 =
                      W.take (k + 1) ++
                        (u5 ++ (q2 ++ (u6 ++ ('(' :: (court0 ++ (')' :: tail)))))) := by
                    conv_lhs => rw [← List.take_append_drop (k + 1) W]
                    rw [List.append_assoc, heca]
                  rw [← hrepe] at hWsplit
                  have hrepw : IsWordRun rep0 := by
                    rw [hrepe]
                    constructor
                    · obtain ⟨hWne, hWall⟩ := hW
                      cases W with
                      | nil => exact absurd rfl hWne
                      | cons c0 t0 => simp [List.take_succ_cons]
                    · intro c0 hc0
                      exact hW.2 c0 (List.take_subset _ _ hc0)
                  refine ⟨u1, u2, p, u3, u4, u5, q2, u6, tail, ?_, hyy, hu1w, hu2w, hp,
                    hu3w, hu4w, hrepw, hu5, hq2, hu6, hcourt⟩
                  rw [hey, hu1e, hu2e, hu3e, hu4e, hWsplit]
                  simp [List.append_assoc]
            · exact Option.noConfusion h
      · exact Option.noConfusion h

theorem caseMatchAt_complete (t y rep court : List Char) (h : CaseShapeAt t y rep court) :
    (caseMatchAt t).isSome = true := by
  obtain ⟨u1, u2, p, u3, u4, u5, q, u6, rest, ht, hy, hu1, hu2, hp, hu3, hu4, hrep,
    hu5, hq, hu6, hcourt⟩ := h
  have hrepne : rep ≠ [] := hrep.1
  rcases u5 with _ | ⟨d5, u5t⟩
  · have ht' : t = y ++ (u1 ++ ('(' :: (u2 ++ (p ++ (u3 ++ (')' :: (u4 ++ ((rep ++ q) ++
        (u6 ++ ('(' :: (court ++ (')' :: rest)))))))))))) := by
      rw [ht]
      simp [List.append_assoc]
    have hrqne : rep ++ q ≠ [] := by
      intro hh
      cases rep with
      | nil => exact hrepne rfl
      | cons a b => exact List.noConfusion hh
    have hrqws : ∀ c ∈ rep ++ q, isWs c = false := by
      intro c hc
      rcases List.mem_append.mp hc with hm | hm
      · exact word_not_ws (hrep.2 c hm)
      · exact digit_not_ws (hq.2 c hm)
    have hrqword : ∀ c ∈ rep ++ q, isWordChar c = true := by
      intro c hc
      rcases List.mem_append.mp hc with hm | hm
      · exact hrep.2 c hm
      · exact digit_word (hq.2 c hm)
    have e1 : digits4 (y ++ (u1 ++ ('(' :: (u2 ++ (p ++ (u3 ++ (')' :: (u4 ++ ((rep ++ q) ++
        (u6 ++ ('(' :: (court ++ (')' :: rest))))))))))))) =
        some (y, u1 ++ ('(' :: (u2 ++ (p ++ (u3 ++ (')' :: (u4 ++ ((rep ++ q) ++
        (u6 ++ ('(' :: (court ++ (')' :: rest)))))))))))) :=
      digits4_complete _ _ hy
    have e2 : (u1 ++ ('(' :: (u2 ++ (p ++ (u3 ++ (')' :: (u4 ++ ((rep ++ q) ++
        (u6 ++ ('(' :: (court ++ (')' :: rest)))))))))))).dropWhile isWs =
        '(' :: (u2 ++ (p ++ (u3 ++ (')' :: (u4 ++ ((rep ++ q) ++
        (u6 ++ ('(' :: (court ++ (')' :: rest)))))))))) :=
      dropWhile_ws_run _ _ hu1 (headNot_cons_false _ _ _ (by decide))
    have e3a : (u2 ++ (p ++ (u3 ++ (')' :: (u4 ++ ((rep ++ q) ++
        (u6 ++ ('(' :: (court ++ (')' :: rest)))))))))).dropWhile isWs =
        p ++ (u3 ++ (')' :: (u4 ++ ((rep ++ q) ++
        (u6 ++ ('(' :: (court ++ (')' :: rest)))))))) :=
      dropWhile_ws_run _ _ hu2
        (headNot_append _ _ _ hp.1 (fun c hc => digit_not_ws (hp.2 c hc)))
    have e3b : digits1 (p ++ (u3 ++ (')' :: (u4 ++ ((rep ++ q) ++
        (u6 ++ ('(' :: (court ++ (')' :: rest))))))))) =
        some (p, u3 ++ (')' :: (u4 ++ ((rep ++ q) ++
        (u6 ++ ('(' :: (court ++ (')' :: rest)))))))) :=
      digits1_complete _ _ hp
        (headNot_wsrun0_cons _ _ _ _ (fun d hd => ws_not_digit (hu3 d hd)) (by decide))
    have e4 : (u3 ++ (')' :: (u4 ++ ((rep ++ q) ++
        (u6 ++ ('(' :: (court ++ (')' :: rest)))))))).dropWhile isWs =
        ')' :: (u4 ++ ((rep ++ q) ++ (u6 ++ ('(' :: (court ++ (')' :: rest)))))) :=
      dropWhile_ws_run _ _ hu3 (headNot_cons_false _ _ _ (by decide))
    have e5 : (u4 ++ ((rep ++ q) ++ (u6 ++ ('(' :: (court ++ (')' :: rest)))))).dropWhile isWs =
        (rep ++ q) ++ (u6 ++ ('(' :: (court ++ (')' :: rest)))) :=
      dropWhile_ws_run _ _ hu4 (headNot_append _ _ _ hrqne hrqws)
    have e6 : wordRun1 ((rep ++ q) ++ (u6 ++ ('(' :: (court ++ (')' :: rest))))) =
        some (rep ++ q, u6 ++ ('(' :: (court ++ (')' :: rest)))) :=
      wordRun1_complete _ _ ⟨hrqne, hrqword⟩
        (headNot_wsrun0_cons _ _ _ _ (fun d hd => ws_not_word (hu6 d hd)) (by decide))
    have hca : caseAfterReporter (q ++ (u6 ++ ('(' :: (court ++ (')' :: rest))))) =
        some court := by
      have h0 := caseAfterReporter_complete [] q u6 court rest
        (fun c hc => absurd hc (List.not_mem_nil c)) hq hu6 hcourt
      exact h0
    have hloop : (caseReporterLoop (rep ++ q) (u6 ++ ('(' :: (court ++ (')' :: rest))))
        (rep ++ q).length).isSome = true := by
      cases rep with
      | nil => exact absurd rfl hrepne
      | cons r0 rt =>
        apply caseReporterLoop_isSome _ _ _ rt.length court
        · simp only [List.length_append, List.length_cons]
          omega
        · have hdrop : ((r0 :: rt) ++ q).drop (rt.length + 1) = q := by
            exact drop_append_self (r0 :: rt) q
          rw [hdrop]
          exact hca
    obtain ⟨g, hg⟩ := Option.isSome_iff_exists.mp hloop
    obtain ⟨rep2, court2⟩ := g
    rw [ht']
    unfold caseMatchAt
    simp only [e1, e2, e3a, e3b, e4, e5, e6, reduceIte, hg]
    rfl
  · have ht' : t = y ++ (u1 ++ ('(' :: (u2 ++ (p ++ (u3 ++ (')' :: (u4 ++ (rep ++
        ((d5 :: u5t) ++ (q ++ (u6 ++ ('(' :: (court ++ (')' :: rest))))))))))))))  := by
      rw [ht]
      simp [List.append_assoc]
    have e1 : digits4 (y ++ (u1 ++ ('(' :: (u2 ++ (p ++ (u3 ++ (')' :: (u4 ++ (rep ++
        ((d5 :: u5t) ++ (q ++ (u6 ++ ('(' :: (court ++ (')' :: rest))))))))))))))) =
        some (y, u1 ++ ('(' :: (u2 ++ (p ++ (u3 ++ (')' :: (u4 ++ (rep ++
        ((d5 :: u5t) ++ (q ++ (u6 ++ ('(' :: (court ++ (')' :: rest)))))))))))))) :=
      digits4_complete _ _ hy
    have e2 : (u1 ++ ('(' :: (u2 ++ (p ++ (u3 ++ (')' :: (u4 ++ (rep ++
        ((d5 :: u5t) ++ (q ++ (u6 ++ ('(' :: (court ++ (')' :: rest)))))))))))))).dropWhile
          isWs =
        '(' :: (u2 ++ (p ++ (u3 ++ (')' :: (u4 ++ (rep ++
        ((d5 :: u5t) ++ (q ++ (u6 ++ ('(' :: (court ++ (')' :: rest)))))))))))) :=
      dropWhile_ws_run _ _ hu1 (headNot_cons_false _ _ _ (by decide))
    have e3a : (u2 ++ (p ++ (u3 ++ (')' :: (u4 ++ (rep ++
        ((d5 :: u5t) ++ (q ++ (u6 ++ ('(' :: (court ++ (')' :: rest)))))))))))).dropWhile
          isWs =
        p ++ (u3 ++ (')' :: (u4 ++ (rep ++
        ((d5 :: u5t) ++ (q ++ (u6 ++ ('(' :: (court ++ (')' :: rest))))))))))  :=
      dropWhile_ws_run _ _ hu2
        (headNot_append _ _ _ hp.1 (fun c hc => digit_not_ws (hp.2 c hc)))
    have e3b : digits1 (p ++ (u3 ++ (')' :: (u4 ++ (rep ++
        ((d5 :: u5t) ++ (q ++ (u6 ++ ('(' :: (court ++ (')' :: rest))))))))))) =
        some (p, u3 ++ (')' :: (u4 ++ (rep ++
        ((d5 :: u5t) ++ (q ++ (u6 ++ ('(' :: (court ++ (')' :: rest))))))))))  :=
      digits1_complete _ _ hp
        (headNot_wsrun0_cons _ _ _ _ (fun d hd => ws_not_digit (hu3 d hd)) (by decide))
    have e4 : (u3 ++ (')' :: (u4 ++ (rep ++
        ((d5 :: u5t) ++ (q ++ (u6 ++ ('(' :: (court ++ (')' :: rest)))))))))).dropWhile
          isWs =
        ')' :: (u4 ++ (rep ++ ((d5 :: u5t) ++ (q ++ (u6 ++ ('(' :: (court ++
        (')' :: rest)))))))) :=
      dropWhile_ws_run _ _ hu3 (headNot_cons_false _ _ _ (by decide))
    have e5 : (u4 ++ (rep ++ ((d5 :: u5t) ++ (q ++ (u6 ++ ('(' :: (court ++
        (')' :: rest)))))))).dropWhile isWs =
        rep ++ ((d5 :: u5t) ++ (q ++ (u6 ++ ('(' :: (court ++ (')' :: rest)))))) :=
      dropWhile_ws_run _ _ hu4
        (headNot_append _ _ _ hrepne (fun c hc => word_not_ws (hrep.2 c hc)))
    have e6 : wordRun1 (rep ++ ((d5 :: u5t) ++ (q ++ (u6 ++ ('(' :: (court ++
        (')' :: rest))))))) =
        some (rep, (d5 :: u5t) ++ (q ++ (u6 ++ ('(' :: (court ++ (')' :: rest)))))) :=
      wordRun1_complete _ _ hrep
        (headNot_append _ _ _ (List.cons_ne_nil d5 u5t)
          (fun c hc => ws_not_word (hu5 c hc)))
    have hca : caseAfterReporter ((d5 :: u5t) ++ (q ++ (u6 ++ ('(' :: (court ++
        (')' :: rest)))))) = some court :=
      caseAfterReporter_complete (d5 :: u5t) q u6 court rest hu5 hq hu6 hcourt
    have hloop : (caseReporterLoop rep ((d5 :: u5t) ++ (q ++ (u6 ++ ('(' :: (court ++
        (')' :: rest)))))) rep.length).isSome = true := by
      cases rep with
      | nil => exact absurd rfl hrepne
      | cons r0 rt =>
        apply caseReporterLoop_isSome _ _ _ rt.length court
        · simp only [List.length_cons]
          omega
        · have hzero : (r0 :: rt).drop (rt.length + 1) = ([] : List Char) := by
            exact List.drop_length (r0 :: rt)
          rw [hzero]
          exact hca
    obtain ⟨g, hg⟩ := Option.isSome_iff_exists.mp hloop
    obtain ⟨rep2, court2⟩ := g
    rw [ht']
    unfold caseMatchAt
    simp only [e1, e2, e3a, e3b, e4, e5, e6, reduceIte, hg]
    rfl

theorem actSearch_sound (s n y : List Char) (h : actSearch s = some (n, y)) :
    ContainsActShape s n y := by
  obtain ⟨i, hi⟩ := searchWith_some actMatchAt s (n, y) h
  exact ⟨s.take i, s.drop i, (List.take_append_drop i s).symm, actMatchAt_sound _ _ _ hi⟩

theorem actSearch_none (s : List Char) (h : ∀ n y, ¬ ContainsActShape s n y) :
    actSearch s = none := by
  cases ha : actSearch s with
  | none => rfl
  | some g =>
    obtain ⟨n, y⟩ := g
    exact absurd (actSearch_sound s n y ha) (h n y)

theorem actSearch_isSome (s n y : List Char) (h : ContainsActShape s n y) :
    (actSearch s).isSome = true := by
  obtain ⟨pre, tail, hst, hshape⟩ := h
  have hm : actMatchAt (s.drop pre.length) = some (n, y) := by
    rw [hst, drop_append_self]
    exact actMatchAt_complete _ _ _ hshape
  exact searchWith_isSome actMatchAt s pre.length (n, y) hm

theorem caseSearch_sound (s y rep court : List Char)
    (h : caseSearch s = some (y, rep, court)) : ContainsCaseShape s y rep court := by
  obtain ⟨i, hi⟩ := searchWith_some caseMatchAt s (y, rep, court) h
  exact ⟨s.take i, s.drop i, (List.take_append_drop i s).symm, caseMatchAt_sound _ _ _ _ hi⟩

theorem caseSearch_isSome (s y rep court : List Char) (h : ContainsCaseShape s y rep court) :
    (caseSearch s).isSome = true := by
  obtain ⟨pre, tail, hst, hshape⟩ := h
  obtain ⟨g, hg⟩ := Option.isSome_iff_exists.mp (caseMatchAt_complete _ _ _ _ hshape)
  have hm : caseMatchAt (s.drop pre.length) = some g := by
    rw [hst, drop_append_self]
    exact hg
  exact searchWith_isSome caseMatchAt s pre.length g hm

theorem caseSearch_none (s : List Char)
    (h : ∀ y rep court, ¬ ContainsCaseShape s y rep court) : caseSearch s = none := by
  cases hc : caseSearch s with
  | none => rfl
  | some g =>
    obtain ⟨y, rep, court⟩ := g
    exact absurd (caseSearch_sound s y rep court hc) (h y rep court)

/-- Claim C2: cross-reference resolution is purely syntactic.  (1) For every
citation text containing an act citation of the shape `Act (No.)? N of YYYY`
(`No.` optional, letters case-insensitive), `identify_target_document`
returns an act identifier `act_{YYYY}_{N}` whose groups come from an act
citation contained in the text.  (2) For every text containing no act
citation but containing a law-report case citation of the shape
`YYYY (V) REPORTER P (COURT)`, it returns a case identifier
`case_{YYYY}_{REPORTER}_{COURT}` whose groups come from a contained case
citation.  (3) For every text containing neither shape it returns `none`
rather than raising.  (4) In particular, the text `Act No. 108 of 1996`
resolves to `act_1996_108`. -/
theorem C2_cross_reference_resolution :
    (∀ s n y, ContainsActShape s n y →
      ∃ n2 y2, ContainsActShape s n2 y2 ∧
        identifyTargetL s = some (actIdOf n2 y2)) ∧
    (∀ s y rep court, (∀ n2 y2, ¬ ContainsActShape s n2 y2) →
      ContainsCaseShape s y rep court →
      ∃ y2 rep2 court2, ContainsCaseShape s y2 rep2 court2 ∧
        identifyTargetL s = some (caseIdOf y2 rep2 court2)) ∧
    (∀ s, (∀ n2 y2, ¬ ContainsActShape s n2 y2) →
      (∀ y2 rep2 court2, ¬ ContainsCaseShape s y2 rep2 court2) →
      identifyTargetL s = none) ∧
    identifyTargetDocument ("Act No. 108 of 1996") = some ("act_1996_108") := by
  refine ⟨?_, ?_, ?_, ?_⟩
  · intro s n y h
    obtain ⟨g, hg⟩ := Option.isSome_iff_exists.mp (actSearch_isSome s n y h)
    obtain ⟨n2, y2⟩ := g
    refine ⟨n2, y2, actSearch_sound s n2 y2 hg, ?_⟩
    unfold identifyTargetL
    simp only [hg]
    rfl
  · intro s y rep court hact hcase
    have ha : actSearch s = none := actSearch_none s hact
    obtain ⟨g, hg⟩ := Option.isSome_iff_exists.mp (caseSearch_isSome s y rep court hcase)
    obtain ⟨y2, rep2, court2⟩ := g
    refine ⟨y2, rep2, court2, caseSearch_sound s y2 rep2 court2 hg, ?_⟩
    unfold identifyTargetL
    simp only [ha, hg]
    rfl
  · intro s hact hcase
    have ha : actSearch s = none := actSearch_none s hact
    have hc : caseSearch s = none := caseSearch_none s hcase
    unfold identifyTargetL
    simp only [ha, hc]
  · decide

end SALegal
